import Mathlib

/-!
# Verification of `beyond_mimic_tracking` selection and curriculum logic

Shallow embedding of the pure logic of:

* `source/whole_body_tracking/whole_body_tracking/tasks/tracking/mdp/curriculums.py`
  (episode-length curriculum gating callbacks),
* `scripts/rsl_rl/smart_selector.py` (checkpoint / motion / task selection),
* `scripts/edit_urdf_collisions.py` (URDF path validation in `main`).

Python floats are modelled as `ℚ` (episode lengths are integer tensor entries,
so all arithmetic performed by the callbacks is exact), Python strings as
`List Char` where substring structure matters and as `String` otherwise,
Python dicts as insertion-ordered association lists, and `sys.exit(n)` as
`Except.error n`.
-/

/-! ## Association lists: Python `dict` lookup and assignment -/

/-- Python `m[key]` as an `Option` (`none` models a raised `KeyError`).
Dict lookup on an insertion-ordered association list with unique keys. -/
def lookupA {κ α : Type} [DecidableEq κ] : List (κ × α) → κ → Option α
  | [], _ => none
  | (k, v) :: rest, key => if k = key then some v else lookupA rest key

/-- Python `m[key] = v`: replace in place when the key exists, append
at the end otherwise (insertion order of `dict`). -/
def updateA {κ α : Type} [DecidableEq κ] : List (κ × α) → κ → α → List (κ × α)
  | [], key, v => [(key, v)]
  | (k, w) :: rest, key, v =>
      if k = key then (k, v) :: rest else (k, w) :: updateA rest key v

theorem lookupA_updateA_self {κ α : Type} [DecidableEq κ] (m : List (κ × α)) (k : κ) (v : α) :
    lookupA (updateA m k v) k = some v := by
  induction m with
  | nil => simp [updateA, lookupA]
  | cons hd tl ih =>
      obtain ⟨k', w⟩ := hd
      by_cases h : k' = k
      · simp [updateA, lookupA, h]
      · simp [updateA, lookupA, h, ih]

theorem lookupA_updateA_ne {κ α : Type} [DecidableEq κ] (m : List (κ × α)) (k k' : κ) (v : α)
    (h : k ≠ k') : lookupA (updateA m k v) k' = lookupA m k' := by
  induction m with
  | nil => simp [updateA, lookupA, h]
  | cons hd tl ih =>
      obtain ⟨k₀, w⟩ := hd
      by_cases h0 : k₀ = k
      · subst h0
        simp [updateA, lookupA, h]
      · simp only [updateA, if_neg h0, lookupA]
        by_cases h1 : k₀ = k'
        · simp [h1]
        · simp [h1, ih]

/-! ## `curriculums.py`: data model

`env.curriculum_tracker` is a dict with keys `total_len` (float),
`num_episodes` (int) and `triggered_events` (a set of strings, modelled as a
list whose membership is what matters).  `env.event_manager._terms` maps term
names to event terms; of an event term only `cfg.params` (a dict) is touched,
so a term is modelled as its params dict. -/

/-- A value stored in an event term's `cfg.params` dict: either a scalar
range tuple (`armature_distribution_params`) or a per-axis velocity range
dict (`velocity_range`). -/
inductive ParamValue where
  | range : ℚ × ℚ → ParamValue
  | velRange : List (String × (ℚ × ℚ)) → ParamValue
deriving DecidableEq

/-- The `env.curriculum_tracker` dict. -/
structure Tracker where
  total_len : ℚ
  num_episodes : ℕ
  triggered_events : List String
deriving DecidableEq

/-- The tracker created on first use (`hasattr` is false). -/
def Tracker.init : Tracker := ⟨0, 0, []⟩

/-- `mean_len = tracker["total_len"] / tracker["num_episodes"]`. -/
def Tracker.meanLen (t : Tracker) : ℚ := t.total_len / (t.num_episodes : ℚ)

/-- The mutable state the callbacks touch: the (possibly still absent)
tracker attribute and `env.event_manager._terms` (each term reduced to its
`cfg.params` dict). -/
structure CurriculumState where
  tracker : Option Tracker
  terms : List (String × List (String × ParamValue))
deriving DecidableEq

/-- `env.episode_length_buf[env_ids]` summed: the batch contribution to
`total_len`.  `buf` is `env.episode_length_buf` (integer episode lengths). -/
def batchSum (env_ids : List ℕ) (buf : ℕ → ℕ) : ℚ := (((env_ids.map buf).sum : ℕ) : ℚ)

/-- `gate_dof_armature_by_episode_length` from `curriculums.py`.
The whole statistics/threshold block runs only under `if len(env_ids) > 0`.
Inside the `try`, only the `_terms["add_dof_armature"]` lookup can raise
`KeyError`; param assignment and the `triggered_events` update never do
(the tracker always has a `triggered_events` key by construction, so the
defensive `if "triggered_events" not in tracker` line is a no-op). -/
def gate_dof_armature_by_episode_length (s : CurriculumState) (env_ids : List ℕ)
    (buf : ℕ → ℕ) (target_mean_len : ℚ) (active_range : ℚ × ℚ) : CurriculumState :=
  -- 1. initialise the tracker if the attribute is missing
  let tracker := s.tracker.getD Tracker.init
  -- 2. if the curriculum already fired, return immediately
  if "armature" ∈ tracker.triggered_events then { s with tracker := some tracker }
  else if 0 < env_ids.length then
    -- 3. accumulate finished episode lengths
    let finished_lengths := env_ids.map buf
    let tracker : Tracker :=
      { tracker with
        total_len := tracker.total_len + ((finished_lengths.sum : ℕ) : ℚ),
        num_episodes := tracker.num_episodes + finished_lengths.length }
    if tracker.num_episodes = 0 then { s with tracker := some tracker }
    else
      let mean_len := tracker.meanLen
      -- 4. threshold check (`mean_len >= target_mean_len`)
      if target_mean_len ≤ mean_len then
        match lookupA s.terms "add_dof_armature" with
        | some event_term =>
            let event_term :=
              updateA event_term "armature_distribution_params" (.range active_range)
            let tracker :=
              { tracker with triggered_events := "armature" :: tracker.triggered_events }
            { tracker := some tracker,
              terms := updateA s.terms "add_dof_armature" event_term }
        | none => { s with tracker := some tracker }
      else { s with tracker := some tracker }
  else { s with tracker := some tracker }

/-- `gate_push_velocity_by_episode_length` from `curriculums.py`.
Unlike the armature gate, only the accumulation is under
`if len(env_ids) > 0`; the division guard and threshold check always run. -/
def gate_push_velocity_by_episode_length (s : CurriculumState) (env_ids : List ℕ)
    (buf : ℕ → ℕ) (target_mean_len : ℚ)
    (new_velocity_range : List (String × (ℚ × ℚ))) : CurriculumState :=
  let tracker := s.tracker.getD Tracker.init
  if "push_increase" ∈ tracker.triggered_events then { s with tracker := some tracker }
  else
    let tracker : Tracker :=
      if 0 < env_ids.length then
        let finished_lengths := env_ids.map buf
        { tracker with
          total_len := tracker.total_len + ((finished_lengths.sum : ℕ) : ℚ),
          num_episodes := tracker.num_episodes + finished_lengths.length }
      else tracker
    if tracker.num_episodes = 0 then { s with tracker := some tracker }
    else
      let mean_len := tracker.meanLen
      if target_mean_len ≤ mean_len then
        match lookupA s.terms "push_robot" with
        | some event_term =>
            let event_term := updateA event_term "velocity_range" (.velRange new_velocity_range)
            let tracker :=
              { tracker with triggered_events := "push_increase" :: tracker.triggered_events }
            { tracker := some tracker,
              terms := updateA s.terms "push_robot" event_term }
        | none => { s with tracker := some tracker }
      else { s with tracker := some tracker }

/-! ### Observables on a curriculum state -/

/-- The `triggered_events` entry seen by the callbacks. -/
def CurriculumState.triggeredEvents (s : CurriculumState) : List String :=
  (s.tracker.getD Tracker.init).triggered_events

/-- The `total_len` entry seen by the callbacks. -/
def CurriculumState.totalLen (s : CurriculumState) : ℚ :=
  (s.tracker.getD Tracker.init).total_len

/-- The `num_episodes` entry seen by the callbacks. -/
def CurriculumState.numEpisodes (s : CurriculumState) : ℕ :=
  (s.tracker.getD Tracker.init).num_episodes

/-- The value of `_terms["add_dof_armature"].cfg.params["armature_distribution_params"]`. -/
def armatureParam (s : CurriculumState) : Option ParamValue :=
  (lookupA s.terms "add_dof_armature").bind fun p => lookupA p "armature_distribution_params"

/-- The value of `_terms["push_robot"].cfg.params["velocity_range"]`. -/
def pushParam (s : CurriculumState) : Option ParamValue :=
  (lookupA s.terms "push_robot").bind fun p => lookupA p "velocity_range"

/-- The running mean that a call with batch `env_ids` computes after having
accumulated the batch: `(total_len + Σ buf[i]) / (num_episodes + len(env_ids))`. -/
def meanAfterCall (s : CurriculumState) (env_ids : List ℕ) (buf : ℕ → ℕ) : ℚ :=
  (s.totalLen + batchSum env_ids buf) / ((s.numEpisodes + env_ids.length : ℕ) : ℚ)

/-! ### Characterisation lemmas for the gate callbacks -/

theorem triggeredEvents_mk (tr : Option Tracker) (tm : List (String × List (String × ParamValue))) :
    CurriculumState.triggeredEvents ⟨tr, tm⟩ = (tr.getD Tracker.init).triggered_events := rfl

theorem totalLen_mk (tr : Option Tracker) (tm : List (String × List (String × ParamValue))) :
    CurriculumState.totalLen ⟨tr, tm⟩ = (tr.getD Tracker.init).total_len := rfl

theorem numEpisodes_mk (tr : Option Tracker) (tm : List (String × List (String × ParamValue))) :
    CurriculumState.numEpisodes ⟨tr, tm⟩ = (tr.getD Tracker.init).num_episodes := rfl

/-- Once `"armature"` is latched, the armature gate is the identity. -/
theorem gate_armature_latched (s : CurriculumState) (e : List ℕ) (b : ℕ → ℕ)
    (t : ℚ) (r : ℚ × ℚ) (h : "armature" ∈ s.triggeredEvents) :
    gate_dof_armature_by_episode_length s e b t r = s := by
  obtain ⟨tr, tm⟩ := s
  cases tr with
  | none => simp [CurriculumState.triggeredEvents, Tracker.init] at h
  | some t0 =>
      simp only [triggeredEvents_mk, Option.getD_some] at h
      simp [gate_dof_armature_by_episode_length, h]

/-- Once `"push_increase"` is latched, the push gate is the identity. -/
theorem gate_push_latched (s : CurriculumState) (e : List ℕ) (b : ℕ → ℕ)
    (t : ℚ) (vr : List (String × (ℚ × ℚ))) (h : "push_increase" ∈ s.triggeredEvents) :
    gate_push_velocity_by_episode_length s e b t vr = s := by
  obtain ⟨tr, tm⟩ := s
  cases tr with
  | none => simp [CurriculumState.triggeredEvents, Tracker.init] at h
  | some t0 =>
      simp only [triggeredEvents_mk, Option.getD_some] at h
      simp [gate_push_velocity_by_episode_length, h]

/-- When the threshold is reached on a non-empty batch and the event term
exists, the armature gate flips the range and latches. -/
theorem gate_armature_flip (s : CurriculumState) (e : List ℕ) (b : ℕ → ℕ)
    (t : ℚ) (r : ℚ × ℚ) (p : List (String × ParamValue))
    (h1 : "armature" ∉ s.triggeredEvents) (h2 : e ≠ [])
    (h3 : t ≤ meanAfterCall s e b)
    (h4 : lookupA s.terms "add_dof_armature" = some p) :
    gate_dof_armature_by_episode_length s e b t r =
      ⟨some ⟨s.totalLen + batchSum e b, s.numEpisodes + e.length,
             "armature" :: s.triggeredEvents⟩,
       updateA s.terms "add_dof_armature"
         (updateA p "armature_distribution_params" (.range r))⟩ := by
  obtain ⟨tr, tm⟩ := s
  simp only [triggeredEvents_mk] at h1
  have hlen : 0 < e.length := List.length_pos.mpr h2
  have hne : ¬ ((tr.getD Tracker.init).num_episodes + (e.map b).length = 0) := by
    simp only [List.length_map]
    omega
  have hmean : t ≤ Tracker.meanLen
      ⟨(tr.getD Tracker.init).total_len + (((e.map b).sum : ℕ) : ℚ),
       (tr.getD Tracker.init).num_episodes + (e.map b).length,
       (tr.getD Tracker.init).triggered_events⟩ := by
    simpa [Tracker.meanLen, meanAfterCall, batchSum, totalLen_mk, numEpisodes_mk,
      List.length_map] using h3
  simp only [gate_dof_armature_by_episode_length, if_neg h1, if_pos hlen, if_neg hne,
    if_pos hmean, h4]
  simp [totalLen_mk, numEpisodes_mk, triggeredEvents_mk, batchSum, List.length_map]


/-- The mean computed after accumulating a batch equals `meanAfterCall`. -/
theorem meanLen_accum (tr : Option Tracker)
    (tm : List (String × List (String × ParamValue))) (e : List ℕ) (b : ℕ → ℕ) :
    Tracker.meanLen
      ⟨(tr.getD Tracker.init).total_len + (((e.map b).sum : ℕ) : ℚ),
       (tr.getD Tracker.init).num_episodes + (e.map b).length,
       (tr.getD Tracker.init).triggered_events⟩ = meanAfterCall ⟨tr, tm⟩ e b := by
  simp [Tracker.meanLen, meanAfterCall, batchSum, totalLen_mk, numEpisodes_mk,
    List.length_map]

/-- When the flip condition fails (empty batch, mean below threshold, or
missing event term), the armature gate only accumulates: the terms dict and
the `triggered_events` set are unchanged. -/
theorem gate_armature_noflip (s : CurriculumState) (e : List ℕ) (b : ℕ → ℕ)
    (t : ℚ) (r : ℚ × ℚ)
    (h1 : "armature" ∉ s.triggeredEvents)
    (h2 : e = [] ∨ ¬ t ≤ meanAfterCall s e b ∨ lookupA s.terms "add_dof_armature" = none) :
    gate_dof_armature_by_episode_length s e b t r =
      ⟨some ⟨s.totalLen + batchSum e b, s.numEpisodes + e.length, s.triggeredEvents⟩,
       s.terms⟩ := by
  obtain ⟨tr, tm⟩ := s
  simp only [triggeredEvents_mk] at h1
  simp only [gate_dof_armature_by_episode_length]
  rw [if_neg h1]
  by_cases hlen : 0 < e.length
  · rw [if_pos hlen]
    have hne : ¬ ((tr.getD Tracker.init).num_episodes + (e.map b).length = 0) := by
      simp only [List.length_map]
      omega
    rw [if_neg hne]
    rcases h2 with h2 | h2 | h2
    · exact absurd hlen (by simp [h2])
    · rw [if_neg (by rw [meanLen_accum tr tm e b]; exact h2)]
      simp [totalLen_mk, numEpisodes_mk, triggeredEvents_mk, batchSum, List.length_map]
    · by_cases hm : t ≤ Tracker.meanLen
          ⟨(tr.getD Tracker.init).total_len + (((e.map b).sum : ℕ) : ℚ),
           (tr.getD Tracker.init).num_episodes + (e.map b).length,
           (tr.getD Tracker.init).triggered_events⟩
      · rw [if_pos hm]
        simp only at h2
        rw [h2]
        simp [totalLen_mk, numEpisodes_mk, triggeredEvents_mk, batchSum, List.length_map]
      · rw [if_neg hm]
        simp [totalLen_mk, numEpisodes_mk, triggeredEvents_mk, batchSum, List.length_map]
  · rw [if_neg hlen]
    have he : e = [] := by
      cases e with
      | nil => rfl
      | cons x xs => simp at hlen
    subst he
    simp [totalLen_mk, numEpisodes_mk, triggeredEvents_mk, batchSum]

/-- On an empty batch the running mean is the stored mean. -/
theorem meanAfterCall_nil (tr : Option Tracker)
    (tm : List (String × List (String × ParamValue))) (b : ℕ → ℕ) :
    meanAfterCall ⟨tr, tm⟩ [] b = Tracker.meanLen (tr.getD Tracker.init) := by
  simp [meanAfterCall, batchSum, Tracker.meanLen, totalLen_mk, numEpisodes_mk]

/-- When the threshold is reached (over at least one recorded episode) and
the event term exists, the push gate flips the velocity range and latches. -/
theorem gate_push_flip (s : CurriculumState) (e : List ℕ) (b : ℕ → ℕ)
    (t : ℚ) (vr : List (String × (ℚ × ℚ))) (p : List (String × ParamValue))
    (h1 : "push_increase" ∉ s.triggeredEvents)
    (h2 : s.numEpisodes + e.length ≠ 0)
    (h3 : t ≤ meanAfterCall s e b)
    (h4 : lookupA s.terms "push_robot" = some p) :
    gate_push_velocity_by_episode_length s e b t vr =
      ⟨some ⟨s.totalLen + batchSum e b, s.numEpisodes + e.length,
             "push_increase" :: s.triggeredEvents⟩,
       updateA s.terms "push_robot" (updateA p "velocity_range" (.velRange vr))⟩ := by
  obtain ⟨tr, tm⟩ := s
  simp only [triggeredEvents_mk] at h1
  simp only [numEpisodes_mk] at h2
  simp only [gate_push_velocity_by_episode_length]
  rw [if_neg h1]
  by_cases hlen : 0 < e.length
  · rw [if_pos hlen]
    have hne : ¬ ((tr.getD Tracker.init).num_episodes + (e.map b).length = 0) := by
      simp only [List.length_map]
      omega
    rw [if_neg hne]
    rw [if_pos (by rw [meanLen_accum tr tm e b]; exact h3)]
    simp only at h4
    rw [h4]
    simp [totalLen_mk, numEpisodes_mk, triggeredEvents_mk, batchSum, List.length_map]
  · have he : e = [] := by
      cases e with
      | nil => rfl
      | cons x xs => simp at hlen
    subst he
    rw [if_neg hlen]
    have hne : ¬ ((tr.getD Tracker.init).num_episodes = 0) := by
      simpa using h2
    rw [if_neg hne]
    rw [if_pos (by rw [← meanAfterCall_nil tr tm b]; exact h3)]
    simp only at h4
    rw [h4]
    simp [totalLen_mk, numEpisodes_mk, triggeredEvents_mk, batchSum]

/-- When the flip condition fails (no episode recorded yet, mean below
threshold, or missing event term), the push gate only accumulates. -/
theorem gate_push_noflip (s : CurriculumState) (e : List ℕ) (b : ℕ → ℕ)
    (t : ℚ) (vr : List (String × (ℚ × ℚ)))
    (h1 : "push_increase" ∉ s.triggeredEvents)
    (h2 : s.numEpisodes + e.length = 0 ∨ ¬ t ≤ meanAfterCall s e b ∨
          lookupA s.terms "push_robot" = none) :
    gate_push_velocity_by_episode_length s e b t vr =
      ⟨some ⟨s.totalLen + batchSum e b, s.numEpisodes + e.length, s.triggeredEvents⟩,
       s.terms⟩ := by
  obtain ⟨tr, tm⟩ := s
  simp only [triggeredEvents_mk] at h1
  simp only [gate_push_velocity_by_episode_length]
  rw [if_neg h1]
  by_cases hlen : 0 < e.length
  · rw [if_pos hlen]
    by_cases hne : (tr.getD Tracker.init).num_episodes + (e.map b).length = 0
    · rw [if_pos hne]
      simp [totalLen_mk, numEpisodes_mk, triggeredEvents_mk, batchSum, List.length_map]
    · rw [if_neg hne]
      rcases h2 with h2 | h2 | h2
      · exact absurd h2 (by simp only [numEpisodes_mk, List.length_map] at hne ⊢; omega)
      · rw [if_neg (by rw [meanLen_accum tr tm e b]; exact h2)]
        simp [totalLen_mk, numEpisodes_mk, triggeredEvents_mk, batchSum, List.length_map]
      · by_cases hm : t ≤ Tracker.meanLen
            ⟨(tr.getD Tracker.init).total_len + (((e.map b).sum : ℕ) : ℚ),
             (tr.getD Tracker.init).num_episodes + (e.map b).length,
             (tr.getD Tracker.init).triggered_events⟩
        · rw [if_pos hm]
          simp only at h2
          rw [h2]
          simp [totalLen_mk, numEpisodes_mk, triggeredEvents_mk, batchSum, List.length_map]
        · rw [if_neg hm]
          simp [totalLen_mk, numEpisodes_mk, triggeredEvents_mk, batchSum, List.length_map]
  · have he : e = [] := by
      cases e with
      | nil => rfl
      | cons x xs => simp at hlen
    subst he
    rw [if_neg hlen]
    by_cases hne : (tr.getD Tracker.init).num_episodes = 0
    · rw [if_pos hne]
      simp [totalLen_mk, numEpisodes_mk, triggeredEvents_mk, batchSum]
    · rw [if_neg hne]
      rcases h2 with h2 | h2 | h2
      · exact absurd h2 (by simp only [numEpisodes_mk, List.length_nil] at hne ⊢; omega)
      · rw [if_neg (by rw [← meanAfterCall_nil tr tm b]; exact h2)]
        simp [totalLen_mk, numEpisodes_mk, triggeredEvents_mk, batchSum]
      · by_cases hm : t ≤ Tracker.meanLen (tr.getD Tracker.init)
        · rw [if_pos hm]
          simp only at h2
          rw [h2]
          simp [totalLen_mk, numEpisodes_mk, triggeredEvents_mk, batchSum]
        · rw [if_neg hm]
          simp [totalLen_mk, numEpisodes_mk, triggeredEvents_mk, batchSum]

/-! ### Sequences of curriculum callback invocations

The event manager calls both callbacks repeatedly on the same `env`, so
they share one `curriculum_tracker`.  A call record carries the arguments
the framework supplies. -/

/-- One invocation of one of the two curriculum callbacks. -/
inductive CurriculumCall where
  | armature : List ℕ → (ℕ → ℕ) → ℚ → ℚ × ℚ → CurriculumCall
  | push : List ℕ → (ℕ → ℕ) → ℚ → List (String × (ℚ × ℚ)) → CurriculumCall

/-- Execute one callback invocation. -/
def curriculumStep (s : CurriculumState) : CurriculumCall → CurriculumState
  | .armature e b t r => gate_dof_armature_by_episode_length s e b t r
  | .push e b t vr => gate_push_velocity_by_episode_length s e b t vr

/-- Execute a sequence of callback invocations in order. -/
def runCalls (s : CurriculumState) (calls : List CurriculumCall) : CurriculumState :=
  calls.foldl curriculumStep s

/-- The summed episode lengths of the batch a call receives. -/
def CurriculumCall.batchTotal : CurriculumCall → ℚ
  | .armature e b _ _ => batchSum e b
  | .push e b _ _ => batchSum e b

/-- The number of entries of the batch a call receives. -/
def CurriculumCall.batchCount : CurriculumCall → ℕ
  | .armature e _ _ _ => e.length
  | .push e _ _ _ => e.length

/-- `triggered_events` only ever grows. -/
theorem step_triggered_mono (s : CurriculumState) (c : CurriculumCall) :
    s.triggeredEvents ⊆ (curriculumStep s c).triggeredEvents := by
  cases c with
  | armature e b t r =>
      show s.triggeredEvents ⊆ (gate_dof_armature_by_episode_length s e b t r).triggeredEvents
      by_cases h : "armature" ∈ s.triggeredEvents
      · rw [gate_armature_latched s e b t r h]
        exact fun x hx => hx
      · by_cases he : e = []
        · rw [gate_armature_noflip s e b t r h (Or.inl he)]
          exact fun x hx => hx
        · by_cases hm : t ≤ meanAfterCall s e b
          · cases hl : lookupA s.terms "add_dof_armature" with
            | some p =>
                rw [gate_armature_flip s e b t r p h he hm hl]
                intro x hx
                exact List.mem_cons_of_mem _ hx
            | none =>
                rw [gate_armature_noflip s e b t r h (Or.inr (Or.inr hl))]
                exact fun x hx => hx
          · rw [gate_armature_noflip s e b t r h (Or.inr (Or.inl hm))]
            exact fun x hx => hx
  | push e b t vr =>
      show s.triggeredEvents ⊆ (gate_push_velocity_by_episode_length s e b t vr).triggeredEvents
      by_cases h : "push_increase" ∈ s.triggeredEvents
      · rw [gate_push_latched s e b t vr h]
        exact fun x hx => hx
      · by_cases hn : s.numEpisodes + e.length = 0
        · rw [gate_push_noflip s e b t vr h (Or.inl hn)]
          exact fun x hx => hx
        · by_cases hm : t ≤ meanAfterCall s e b
          · cases hl : lookupA s.terms "push_robot" with
            | some p =>
                rw [gate_push_flip s e b t vr p h hn hm hl]
                intro x hx
                exact List.mem_cons_of_mem _ hx
            | none =>
                rw [gate_push_noflip s e b t vr h (Or.inr (Or.inr hl))]
                exact fun x hx => hx
          · rw [gate_push_noflip s e b t vr h (Or.inr (Or.inl hm))]
            exact fun x hx => hx

/-- Over a whole sequence, `triggered_events` only ever grows. -/
theorem runCalls_triggered_mono (calls : List CurriculumCall) (s : CurriculumState) :
    s.triggeredEvents ⊆ (runCalls s calls).triggeredEvents := by
  induction calls generalizing s with
  | nil => exact fun x h => h
  | cons c cs ih =>
      exact fun x hx => ih (curriculumStep s c) (step_triggered_mono s c hx)

/-- As long as nothing has latched, one call adds exactly its batch to the
running statistics. -/
theorem step_accumulates (s : CurriculumState) (c : CurriculumCall)
    (h : s.triggeredEvents = []) :
    (curriculumStep s c).totalLen = s.totalLen + c.batchTotal ∧
    (curriculumStep s c).numEpisodes = s.numEpisodes + c.batchCount := by
  cases c with
  | armature e b t r =>
      have hmem : "armature" ∉ s.triggeredEvents := by simp [h]
      by_cases he : e = []
      · rw [show curriculumStep s (.armature e b t r) =
              gate_dof_armature_by_episode_length s e b t r from rfl,
            gate_armature_noflip s e b t r hmem (Or.inl he)]
        exact ⟨rfl, rfl⟩
      · by_cases hm : t ≤ meanAfterCall s e b
        · cases hl : lookupA s.terms "add_dof_armature" with
          | some p =>
              rw [show curriculumStep s (.armature e b t r) =
                    gate_dof_armature_by_episode_length s e b t r from rfl,
                  gate_armature_flip s e b t r p hmem he hm hl]
              exact ⟨rfl, rfl⟩
          | none =>
              rw [show curriculumStep s (.armature e b t r) =
                    gate_dof_armature_by_episode_length s e b t r from rfl,
                  gate_armature_noflip s e b t r hmem (Or.inr (Or.inr hl))]
              exact ⟨rfl, rfl⟩
        · rw [show curriculumStep s (.armature e b t r) =
                gate_dof_armature_by_episode_length s e b t r from rfl,
              gate_armature_noflip s e b t r hmem (Or.inr (Or.inl hm))]
          exact ⟨rfl, rfl⟩
  | push e b t vr =>
      have hmem : "push_increase" ∉ s.triggeredEvents := by simp [h]
      by_cases hn : s.numEpisodes + e.length = 0
      · rw [show curriculumStep s (.push e b t vr) =
              gate_push_velocity_by_episode_length s e b t vr from rfl,
            gate_push_noflip s e b t vr hmem (Or.inl hn)]
        exact ⟨rfl, rfl⟩
      · by_cases hm : t ≤ meanAfterCall s e b
        · cases hl : lookupA s.terms "push_robot" with
          | some p =>
              rw [show curriculumStep s (.push e b t vr) =
                    gate_push_velocity_by_episode_length s e b t vr from rfl,
                  gate_push_flip s e b t vr p hmem hn hm hl]
              exact ⟨rfl, rfl⟩
          | none =>
              rw [show curriculumStep s (.push e b t vr) =
                    gate_push_velocity_by_episode_length s e b t vr from rfl,
                  gate_push_noflip s e b t vr hmem (Or.inr (Or.inr hl))]
              exact ⟨rfl, rfl⟩
        · rw [show curriculumStep s (.push e b t vr) =
                gate_push_velocity_by_episode_length s e b t vr from rfl,
              gate_push_noflip s e b t vr hmem (Or.inr (Or.inl hm))]
          exact ⟨rfl, rfl⟩

/-- Running-statistics invariant over a sequence, as long as nothing latched. -/
theorem runCalls_accumulates (calls : List CurriculumCall) (s : CurriculumState)
    (h : (runCalls s calls).triggeredEvents = []) :
    (runCalls s calls).totalLen = s.totalLen + (calls.map CurriculumCall.batchTotal).sum ∧
    (runCalls s calls).numEpisodes = s.numEpisodes + (calls.map CurriculumCall.batchCount).sum := by
  induction calls generalizing s with
  | nil => simp [runCalls]
  | cons c cs ih =>
      have hrun : runCalls s (c :: cs) = runCalls (curriculumStep s c) cs := rfl
      rw [hrun] at h ⊢
      have hclean : s.triggeredEvents = [] := by
        have h1 := runCalls_triggered_mono cs (curriculumStep s c)
        rw [h] at h1
        have h2 : s.triggeredEvents ⊆ ([] : List String) :=
          fun x hx => h1 (step_triggered_mono s c hx)
        exact List.eq_nil_iff_forall_not_mem.mpr fun x hx => (List.not_mem_nil x) (h2 hx)
      obtain ⟨ht, hn⟩ := step_accumulates s c hclean
      obtain ⟨ht', hn'⟩ := ih (curriculumStep s c) h
      constructor
      · rw [ht', ht]
        simp [add_assoc]
      · rw [hn', hn]
        simp [Nat.add_assoc]

/-! ## Claim theorems for the curriculum callbacks -/

/-- Concrete state for the C1 counterexample: one episode of length 100 has
been recorded (the event term was absent at that earlier call, so nothing
latched), and the event term is present now with an inactive range. -/
def c1State : CurriculumState :=
  ⟨some ⟨100, 1, []⟩,
   [("add_dof_armature", [("armature_distribution_params", ParamValue.range (0, 0))])]⟩

/-- C1 counterexample: a call to `gate_dof_armature_by_episode_length` with an
EMPTY `env_ids` batch, untriggered event, and existing event term, whose
running mean (100 over 1 episode) is ≥ `target_mean_len = 50`, does NOT set
the randomization range: the whole threshold test is guarded by
`if len(env_ids) > 0`, so the claimed "if and only if" fails in the
"if" direction for the armature callback. -/
theorem armature_gate_skips_threshold_on_empty_batch :
    "armature" ∉ c1State.triggeredEvents ∧
    (lookupA c1State.terms "add_dof_armature").isSome = true ∧
    (50 : ℚ) ≤ meanAfterCall c1State [] (fun _ => 0) ∧
    armatureParam
        (gate_dof_armature_by_episode_length c1State [] (fun _ => 0) 50 (1, 2)) ≠
      some (.range (1, 2)) := by
  have h1 : "armature" ∉ c1State.triggeredEvents := by
    simp [c1State, CurriculumState.triggeredEvents]
  refine ⟨h1, by simp [c1State, lookupA], ?_, ?_⟩
  · show (50 : ℚ) ≤ meanAfterCall c1State [] (fun _ => 0)
    rw [show c1State = ⟨some ⟨100, 1, []⟩, c1State.terms⟩ from rfl]
    rw [meanAfterCall_nil]
    norm_num [Tracker.meanLen]
  · rw [gate_armature_noflip c1State [] (fun _ => 0) 50 (1, 2) h1 (Or.inl rfl)]
    simp only [armatureParam, c1State, lookupA]
    norm_num [lookupA, Prod.ext_iff]

/-- **C1 (amended).**  For a call whose event has not yet been triggered and
whose event term exists, the callback sets the event term's randomization
range to the new range if and only if the running mean computed at that call
is ≥ `target_mean_len` AND, for the armature callback, the `env_ids` batch is
non-empty (resp., for the push callback, at least one episode has been
recorded).  The armature callback never tests the threshold on an empty
batch; the push callback does. -/
theorem gate_flip_iff_threshold_amended :
    (∀ (s : CurriculumState) (e : List ℕ) (b : ℕ → ℕ) (t : ℚ) (r : ℚ × ℚ)
       (p : List (String × ParamValue)),
       "armature" ∉ s.triggeredEvents →
       lookupA s.terms "add_dof_armature" = some p →
       ((e ≠ [] ∧ t ≤ meanAfterCall s e b →
           armatureParam (gate_dof_armature_by_episode_length s e b t r) =
             some (.range r) ∧
           "armature" ∈ (gate_dof_armature_by_episode_length s e b t r).triggeredEvents) ∧
        (¬(e ≠ [] ∧ t ≤ meanAfterCall s e b) →
           (gate_dof_armature_by_episode_length s e b t r).terms = s.terms ∧
           "armature" ∉ (gate_dof_armature_by_episode_length s e b t r).triggeredEvents))) ∧
    (∀ (s : CurriculumState) (e : List ℕ) (b : ℕ → ℕ) (t : ℚ)
       (vr : List (String × (ℚ × ℚ))) (p : List (String × ParamValue)),
       "push_increase" ∉ s.triggeredEvents →
       lookupA s.terms "push_robot" = some p →
       ((s.numEpisodes + e.length ≠ 0 ∧ t ≤ meanAfterCall s e b →
           pushParam (gate_push_velocity_by_episode_length s e b t vr) =
             some (.velRange vr) ∧
           "push_increase" ∈ (gate_push_velocity_by_episode_length s e b t vr).triggeredEvents) ∧
        (¬(s.numEpisodes + e.length ≠ 0 ∧ t ≤ meanAfterCall s e b) →
           (gate_push_velocity_by_episode_length s e b t vr).terms = s.terms ∧
           "push_increase" ∉
             (gate_push_velocity_by_episode_length s e b t vr).triggeredEvents))) := by
  constructor
  · intro s e b t r p h1 hp
    constructor
    · rintro ⟨he, hm⟩
      rw [gate_armature_flip s e b t r p h1 he hm hp]
      refine ⟨?_, ?_⟩
      · simp [armatureParam, lookupA_updateA_self]
      · show "armature" ∈ "armature" :: s.triggeredEvents
        exact List.mem_cons_self _ _
    · intro hcond
      have h2 : e = [] ∨ ¬ t ≤ meanAfterCall s e b := by
        by_cases he : e = []
        · exact Or.inl he
        · exact Or.inr fun hm => hcond ⟨he, hm⟩
      rw [gate_armature_noflip s e b t r h1 (h2.elim Or.inl fun h => Or.inr (Or.inl h))]
      exact ⟨rfl, h1⟩
  · intro s e b t vr p h1 hp
    constructor
    · rintro ⟨hn, hm⟩
      rw [gate_push_flip s e b t vr p h1 hn hm hp]
      refine ⟨?_, ?_⟩
      · simp [pushParam, lookupA_updateA_self]
      · show "push_increase" ∈ "push_increase" :: s.triggeredEvents
        exact List.mem_cons_self _ _
    · intro hcond
      have h2 : s.numEpisodes + e.length = 0 ∨ ¬ t ≤ meanAfterCall s e b := by
        by_cases hn : s.numEpisodes + e.length = 0
        · exact Or.inl hn
        · exact Or.inr fun hm => hcond ⟨hn, hm⟩
      rw [gate_push_noflip s e b t vr h1 (h2.elim Or.inl fun h => Or.inr (Or.inl h))]
      exact ⟨rfl, h1⟩

/-- Witness for the amended C1 theorem on concrete inputs: starting with no
tracker, a batch of one episode of length 100 against threshold 50 flips both
ranges. -/
theorem gate_flip_iff_threshold_amended_witness :
    armatureParam
        (gate_dof_armature_by_episode_length
          ⟨none, [("add_dof_armature", [])]⟩ [4] (fun _ => 100) 50 (1, 2)) =
      some (.range (1, 2)) ∧
    pushParam
        (gate_push_velocity_by_episode_length
          ⟨none, [("push_robot", [])]⟩ [4] (fun _ => 100) 50 [("x", (-1, 1))]) =
      some (.velRange [("x", (-1, 1))]) := by
  constructor
  · exact ((gate_flip_iff_threshold_amended.1
      ⟨none, [("add_dof_armature", [])]⟩ [4] (fun _ => 100) 50 (1, 2) []
      (by simp [CurriculumState.triggeredEvents, Tracker.init])
      (by simp [lookupA])).1
      ⟨by simp, by norm_num [meanAfterCall, batchSum, CurriculumState.totalLen,
        CurriculumState.numEpisodes, Tracker.init]⟩).1
  · exact ((gate_flip_iff_threshold_amended.2
      ⟨none, [("push_robot", [])]⟩ [4] (fun _ => 100) 50 [("x", (-1, 1))] []
      (by simp [CurriculumState.triggeredEvents, Tracker.init])
      (by simp [lookupA])).1
      ⟨by simp [CurriculumState.numEpisodes, Tracker.init],
       by norm_num [meanAfterCall, batchSum, CurriculumState.totalLen,
        CurriculumState.numEpisodes, Tracker.init]⟩).1

/-- **C2.**  Each gating callback is one-shot: once its tag is in
`triggered_events`, any call of that callback returns immediately with the
state completely unchanged (no param change, no `total_len` / `num_episodes`
update), and over any subsequent sequence of calls the tag stays latched, so
the range is never flipped a second time. -/
theorem gate_one_shot_latch :
    (∀ (s : CurriculumState) (e : List ℕ) (b : ℕ → ℕ) (t : ℚ) (r : ℚ × ℚ),
       "armature" ∈ s.triggeredEvents →
       gate_dof_armature_by_episode_length s e b t r = s) ∧
    (∀ (s : CurriculumState) (e : List ℕ) (b : ℕ → ℕ) (t : ℚ)
       (vr : List (String × (ℚ × ℚ))),
       "push_increase" ∈ s.triggeredEvents →
       gate_push_velocity_by_episode_length s e b t vr = s) ∧
    (∀ (s : CurriculumState) (calls : List CurriculumCall) (tag : String),
       tag ∈ s.triggeredEvents → tag ∈ (runCalls s calls).triggeredEvents) := by
  refine ⟨gate_armature_latched, gate_push_latched, ?_⟩
  intro s calls tag h
  exact runCalls_triggered_mono calls s h

/-- Witness for C2: with `"armature"` (resp. `"push_increase"`) latched,
a concrete call leaves the concrete state untouched. -/
theorem gate_one_shot_latch_witness :
    gate_dof_armature_by_episode_length
        ⟨some ⟨7, 2, ["armature"]⟩, []⟩ [0] (fun _ => 3) 1 (1, 2) =
      ⟨some ⟨7, 2, ["armature"]⟩, []⟩ ∧
    gate_push_velocity_by_episode_length
        ⟨some ⟨7, 2, ["push_increase"]⟩, []⟩ [0] (fun _ => 3) 1 [] =
      ⟨some ⟨7, 2, ["push_increase"]⟩, []⟩ := by
  constructor
  · exact gate_one_shot_latch.1 ⟨some ⟨7, 2, ["armature"]⟩, []⟩ [0] (fun _ => 3) 1 (1, 2)
      (by simp [CurriculumState.triggeredEvents])
  · exact gate_one_shot_latch.2.1 ⟨some ⟨7, 2, ["push_increase"]⟩, []⟩ [0] (fun _ => 3) 1 []
      (by simp [CurriculumState.triggeredEvents])

/-- **C3.**  Starting from an environment without a tracker, after any
sequence of callback invocations in which nothing has latched,
`total_len` is the sum of all episode lengths of every batch passed so far,
`num_episodes` is the count of those entries, and the mean used for the
threshold test is `total_len / num_episodes`. -/
theorem tracker_running_mean_invariant :
    ∀ (terms : List (String × List (String × ParamValue))) (calls : List CurriculumCall),
      (runCalls ⟨none, terms⟩ calls).triggeredEvents = [] →
      (runCalls ⟨none, terms⟩ calls).totalLen =
          (calls.map CurriculumCall.batchTotal).sum ∧
      (runCalls ⟨none, terms⟩ calls).numEpisodes =
          (calls.map CurriculumCall.batchCount).sum ∧
      ∀ tr : Tracker, tr.meanLen = tr.total_len / (tr.num_episodes : ℚ) := by
  intro terms calls h
  obtain ⟨ht, hn⟩ := runCalls_accumulates calls ⟨none, terms⟩ h
  refine ⟨?_, ?_, fun tr => rfl⟩
  · rw [ht]
    simp [CurriculumState.totalLen, Tracker.init]
  · rw [hn]
    simp [CurriculumState.numEpisodes, Tracker.init]

/-- Witness for C3 on a concrete two-call sequence (one armature call with a
two-element batch, one push call with a one-element batch, threshold high
enough that nothing latches). -/
theorem tracker_running_mean_invariant_witness :
    CurriculumState.triggeredEvents (runCalls ⟨none, []⟩
        [.armature [0, 1] (fun _ => 5) 1000 (1, 2), .push [2] (fun _ => 7) 1000 []]) = [] ∧
    CurriculumState.totalLen (runCalls ⟨none, []⟩
        [.armature [0, 1] (fun _ => 5) 1000 (1, 2), .push [2] (fun _ => 7) 1000 []]) = 17 ∧
    CurriculumState.numEpisodes (runCalls ⟨none, []⟩
        [.armature [0, 1] (fun _ => 5) 1000 (1, 2), .push [2] (fun _ => 7) 1000 []]) = 3 := by
  have hclean : CurriculumState.triggeredEvents (runCalls ⟨none, []⟩
      [.armature [0, 1] (fun _ => 5) 1000 (1, 2), .push [2] (fun _ => 7) 1000 []]) = [] := by
    have s1 := gate_armature_noflip ⟨none, []⟩ [0, 1] (fun _ => 5) 1000 (1, 2)
      (by simp [CurriculumState.triggeredEvents, Tracker.init])
      (Or.inr (Or.inr (by simp [lookupA])))
    have s2 := gate_push_noflip
      ⟨some ⟨(⟨none, []⟩ : CurriculumState).totalLen + batchSum [0, 1] (fun _ => 5),
             (⟨none, []⟩ : CurriculumState).numEpisodes + ([0, 1] : List ℕ).length,
             (⟨none, []⟩ : CurriculumState).triggeredEvents⟩, []⟩
      [2] (fun _ => 7) 1000 []
      (by simp [CurriculumState.triggeredEvents, Tracker.init])
      (Or.inr (Or.inr (by simp [lookupA])))
    show CurriculumState.triggeredEvents
      (curriculumStep (curriculumStep ⟨none, []⟩
        (.armature [0, 1] (fun _ => 5) 1000 (1, 2))) (.push [2] (fun _ => 7) 1000 [])) = []
    rw [show curriculumStep ⟨none, []⟩ (.armature [0, 1] (fun _ => 5) 1000 (1, 2)) =
          gate_dof_armature_by_episode_length ⟨none, []⟩ [0, 1] (fun _ => 5) 1000 (1, 2)
        from rfl, s1]
    rw [show curriculumStep _ (.push [2] (fun _ => 7) 1000 []) =
          gate_push_velocity_by_episode_length _ [2] (fun _ => 7) 1000 [] from rfl, s2]
    simp [CurriculumState.triggeredEvents, Tracker.init]
  obtain ⟨ht, hn, _⟩ := tracker_running_mean_invariant []
    [.armature [0, 1] (fun _ => 5) 1000 (1, 2), .push [2] (fun _ => 7) 1000 []] hclean
  refine ⟨hclean, ?_, ?_⟩
  · rw [ht]
    norm_num [CurriculumCall.batchTotal, batchSum]
  · rw [hn]
    norm_num [CurriculumCall.batchCount]

/-- **C8.**  If the event term is absent when the threshold is reached, the
callback leaves the terms dict untouched (the guarded lookup turns the
`KeyError` into a warning), does NOT latch the one-shot tag, and the tracker
is left in a state from which a later call (with the term present and the
mean still at threshold) performs the flip. -/
theorem gate_missing_term_warns_and_retries :
    (∀ (s : CurriculumState) (e : List ℕ) (b : ℕ → ℕ) (t : ℚ) (r : ℚ × ℚ),
       "armature" ∉ s.triggeredEvents → e ≠ [] → t ≤ meanAfterCall s e b →
       lookupA s.terms "add_dof_armature" = none →
       (gate_dof_armature_by_episode_length s e b t r).terms = s.terms ∧
       "armature" ∉ (gate_dof_armature_by_episode_length s e b t r).triggeredEvents ∧
       (∀ (tm2 : List (String × List (String × ParamValue)))
          (p : List (String × ParamValue)) (e2 : List ℕ) (b2 : ℕ → ℕ),
          lookupA tm2 "add_dof_armature" = some p → e2 ≠ [] →
          t ≤ meanAfterCall
              ⟨(gate_dof_armature_by_episode_length s e b t r).tracker, tm2⟩ e2 b2 →
          armatureParam
              (gate_dof_armature_by_episode_length
                ⟨(gate_dof_armature_by_episode_length s e b t r).tracker, tm2⟩
                e2 b2 t r) = some (.range r))) ∧
    (∀ (s : CurriculumState) (e : List ℕ) (b : ℕ → ℕ) (t : ℚ)
       (vr : List (String × (ℚ × ℚ))),
       "push_increase" ∉ s.triggeredEvents → s.numEpisodes + e.length ≠ 0 →
       t ≤ meanAfterCall s e b →
       lookupA s.terms "push_robot" = none →
       (gate_push_velocity_by_episode_length s e b t vr).terms = s.terms ∧
       "push_increase" ∉ (gate_push_velocity_by_episode_length s e b t vr).triggeredEvents ∧
       (∀ (tm2 : List (String × List (String × ParamValue)))
          (p : List (String × ParamValue)) (e2 : List ℕ) (b2 : ℕ → ℕ),
          lookupA tm2 "push_robot" = some p →
          CurriculumState.numEpisodes
              ⟨(gate_push_velocity_by_episode_length s e b t vr).tracker, tm2⟩ +
            e2.length ≠ 0 →
          t ≤ meanAfterCall
              ⟨(gate_push_velocity_by_episode_length s e b t vr).tracker, tm2⟩ e2 b2 →
          pushParam
              (gate_push_velocity_by_episode_length
                ⟨(gate_push_velocity_by_episode_length s e b t vr).tracker, tm2⟩
                e2 b2 t vr) = some (.velRange vr))) := by
  constructor
  · intro s e b t r h1 he hm hl
    rw [gate_armature_noflip s e b t r h1 (Or.inr (Or.inr hl))]
    refine ⟨rfl, h1, ?_⟩
    intro tm2 p e2 b2 hp he2 hm2
    have h1' : "armature" ∉ CurriculumState.triggeredEvents
        ⟨some ⟨s.totalLen + batchSum e b, s.numEpisodes + e.length, s.triggeredEvents⟩,
         tm2⟩ := h1
    rw [gate_armature_flip _ e2 b2 t r p h1' he2 hm2 hp]
    simp [armatureParam, lookupA_updateA_self]
  · intro s e b t vr h1 hn hm hl
    rw [gate_push_noflip s e b t vr h1 (Or.inr (Or.inr hl))]
    refine ⟨rfl, h1, ?_⟩
    intro tm2 p e2 b2 hp hn2 hm2
    have h1' : "push_increase" ∉ CurriculumState.triggeredEvents
        ⟨some ⟨s.totalLen + batchSum e b, s.numEpisodes + e.length, s.triggeredEvents⟩,
         tm2⟩ := h1
    rw [gate_push_flip _ e2 b2 t vr p h1' hn2 hm2 hp]
    simp [pushParam, lookupA_updateA_self]

/-- Witness for C8: threshold reached with the term absent, then a second
call with the term present flips. -/
theorem gate_missing_term_warns_and_retries_witness :
    (gate_dof_armature_by_episode_length ⟨none, []⟩ [0] (fun _ => 100) 50 (1, 2)).terms
        = [] ∧
    "armature" ∉ CurriculumState.triggeredEvents
      (gate_dof_armature_by_episode_length ⟨none, []⟩ [0] (fun _ => 100) 50 (1, 2)) ∧
    armatureParam
        (gate_dof_armature_by_episode_length
          ⟨CurriculumState.tracker
             (gate_dof_armature_by_episode_length ⟨none, []⟩ [0] (fun _ => 100) 50 (1, 2)),
           [("add_dof_armature", [])]⟩ [1] (fun _ => 100) 50 (1, 2)) =
      some (.range (1, 2)) := by
  obtain ⟨h1, h2, h3⟩ := gate_missing_term_warns_and_retries.1
    ⟨none, []⟩ [0] (fun _ => 100) 50 (1, 2)
    (by simp [CurriculumState.triggeredEvents, Tracker.init])
    (by simp)
    (by norm_num [meanAfterCall, batchSum, CurriculumState.totalLen,
      CurriculumState.numEpisodes, Tracker.init])
    (by simp [lookupA])
  refine ⟨h1, h2, ?_⟩
  apply h3 [("add_dof_armature", [])] [] [1] (fun _ => 100)
  · simp [lookupA]
  · simp
  · have hrw := gate_armature_noflip ⟨none, []⟩ [0] (fun _ => 100) 50 (1, 2)
      (by simp [CurriculumState.triggeredEvents, Tracker.init])
      (Or.inr (Or.inr (by simp [lookupA])))
    rw [hrw]
    norm_num [meanAfterCall, batchSum, CurriculumState.totalLen,
      CurriculumState.numEpisodes, CurriculumState.triggeredEvents, Tracker.init]

/-! ## `smart_selector.py`: task/log-dir maps (`_build_reverse_log_map`) -/

/-- `self.TASK_LOG_MAP`: a dict literal with distinct keys, in source order. -/
def TASK_LOG_MAP : List (String × String) :=
  [("Tracking-Flat-G1-Wo-State-Estimation-v0", "g1_flat"),
   ("Tracking-Flat-G1-v0", "g1_flat"),
   ("Tracking-Flat-S3-Wo-State-Estimation-v0", "s3_flat"),
   ("Tracking-Flat-S3-v0", "s3_flat"),
   ("Tracking-Flat-Walk-Humanoid-v0", "humanoid_flat"),
   ("Tracking-Flat-WalkBack-Humanoid-v0", "humanoid_flat"),
   ("Tracking-Flat-WalkBox-Humanoid-v0", "humanoid_flat")]

/-- One iteration of the `_build_reverse_log_map` loop body:
`if log_dir not in rev: rev[log_dir] = []` then `rev[log_dir].append(task)`. -/
def addReverseEntry (rev : List (String × List String)) (task log_dir : String) :
    List (String × List String) :=
  match lookupA rev log_dir with
  | none => updateA rev log_dir [task]
  | some ts => updateA rev log_dir (ts ++ [task])

/-- `_build_reverse_log_map`: iterate over `TASK_LOG_MAP.items()`. -/
def buildReverseLogMap (m : List (String × String)) : List (String × List String) :=
  m.foldl (fun rev p => addReverseEntry rev p.1 p.2) []

/-- `self.REVERSE_LOG_MAP` after construction. -/
def REVERSE_LOG_MAP : List (String × List String) := buildReverseLogMap TASK_LOG_MAP

/-- Dict lookup defaulting to the empty list (a key never present maps to
nothing). -/
def lookupD (rev : List (String × List String)) (d : String) : List String :=
  (lookupA rev d).getD []

theorem lookupA_updateA_isSome {κ α : Type} [DecidableEq κ] (m : List (κ × α)) (k k' : κ) (v : α) :
    (lookupA (updateA m k v) k').isSome ↔ (lookupA m k').isSome ∨ k' = k := by
  by_cases h : k = k'
  · subst h
    simp [lookupA_updateA_self]
  · rw [lookupA_updateA_ne m k k' v h]
    have h' : ¬ (k' = k) := fun hh => h hh.symm
    simp [h']

theorem lookupD_addReverseEntry_self (rev : List (String × List String))
    (task d : String) :
    lookupD (addReverseEntry rev task d) d = lookupD rev d ++ [task] := by
  unfold addReverseEntry
  cases h : lookupA rev d with
  | none => simp [lookupD, lookupA_updateA_self, h]
  | some ts => simp [lookupD, lookupA_updateA_self, h]

theorem lookupA_addReverseEntry_ne (rev : List (String × List String))
    (task d d' : String) (h : d ≠ d') :
    lookupA (addReverseEntry rev task d) d' = lookupA rev d' := by
  unfold addReverseEntry
  cases hl : lookupA rev d with
  | none => exact lookupA_updateA_ne rev d d' [task] h
  | some ts => exact lookupA_updateA_ne rev d d' (ts ++ [task]) h

theorem isSome_addReverseEntry (rev : List (String × List String)) (task d d' : String) :
    (lookupA (addReverseEntry rev task d) d').isSome ↔
      (lookupA rev d').isSome ∨ d' = d := by
  unfold addReverseEntry
  cases hl : lookupA rev d with
  | none => exact lookupA_updateA_isSome rev d d' [task]
  | some ts => exact lookupA_updateA_isSome rev d d' (ts ++ [task])

/-- The fold underlying `_build_reverse_log_map` collects, per log-dir key,
the first components of the pairs with that second component, in order. -/
theorem lookupD_foldl_addReverseEntry (m : List (String × String))
    (rev : List (String × List String)) (d : String) :
    lookupD (m.foldl (fun rev p => addReverseEntry rev p.1 p.2) rev) d =
      lookupD rev d ++ (m.filter (fun p => p.2 = d)).map Prod.fst := by
  induction m generalizing rev with
  | nil => simp
  | cons hd tl ih =>
      obtain ⟨t, d'⟩ := hd
      simp only [List.foldl_cons, ih (addReverseEntry rev t d')]
      by_cases h : d' = d
      · subst h
        rw [lookupD_addReverseEntry_self]
        simp
      · rw [show lookupD (addReverseEntry rev t d') d = lookupD rev d from by
          simp [lookupD, lookupA_addReverseEntry_ne rev t d' d h]]
        simp [h]

theorem isSome_foldl_addReverseEntry (m : List (String × String))
    (rev : List (String × List String)) (d : String) :
    (lookupA (m.foldl (fun rev p => addReverseEntry rev p.1 p.2) rev) d).isSome ↔
      (lookupA rev d).isSome ∨ d ∈ m.map Prod.snd := by
  induction m generalizing rev with
  | nil => simp
  | cons hd tl ih =>
      obtain ⟨t, d'⟩ := hd
      simp only [List.foldl_cons, ih (addReverseEntry rev t d'),
        isSome_addReverseEntry, List.map_cons, List.mem_cons]
      tauto

theorem mem_keys_iff_isSome {κ α : Type} [DecidableEq κ] (m : List (κ × α)) (k : κ) :
    k ∈ m.map Prod.fst ↔ (lookupA m k).isSome := by
  induction m with
  | nil => simp [lookupA]
  | cons hd tl ih =>
      obtain ⟨k', v⟩ := hd
      by_cases h : k' = k
      · simp [lookupA, h]
      · have h' : ¬ (k = k') := fun hh => h hh.symm
        simp [lookupA, h, ih, h']

/-- **C6.**  `REVERSE_LOG_MAP` correctly inverts the one-to-many
`TASK_LOG_MAP`: for every log-dir name `d` its entry is exactly the list of
tasks mapping to `d` (each exactly once), and its key set is exactly the
value set of `TASK_LOG_MAP`. -/
theorem reverse_log_map_inverts :
    (∀ d : String,
       lookupD REVERSE_LOG_MAP d =
         (TASK_LOG_MAP.filter (fun p => p.2 = d)).map Prod.fst) ∧
    (∀ d t : String, t ∈ lookupD REVERSE_LOG_MAP d ↔ (t, d) ∈ TASK_LOG_MAP) ∧
    (∀ d : String, (lookupD REVERSE_LOG_MAP d).Nodup) ∧
    (∀ d : String,
       d ∈ REVERSE_LOG_MAP.map Prod.fst ↔ d ∈ TASK_LOG_MAP.map Prod.snd) := by
  have hmain : ∀ d, lookupD REVERSE_LOG_MAP d =
      (TASK_LOG_MAP.filter (fun p => p.2 = d)).map Prod.fst := by
    intro d
    have := lookupD_foldl_addReverseEntry TASK_LOG_MAP [] d
    simpa [REVERSE_LOG_MAP, buildReverseLogMap, lookupD, lookupA] using this
  refine ⟨hmain, ?_, ?_, ?_⟩
  · intro d t
    rw [hmain d]
    simp only [List.mem_map, List.mem_filter]
    constructor
    · rintro ⟨⟨t', d'⟩, ⟨hmem, hd⟩, ht⟩
      simp only [decide_eq_true_eq] at hd
      cases ht
      cases hd
      exact hmem
    · intro hmem
      exact ⟨(t, d), ⟨hmem, by simp⟩, rfl⟩
  · intro d
    rw [hmain d]
    have hsub : List.Sublist ((TASK_LOG_MAP.filter (fun p => p.2 = d)).map Prod.fst)
        (TASK_LOG_MAP.map Prod.fst) :=
      (TASK_LOG_MAP.filter_sublist).map Prod.fst
    exact (by decide : (TASK_LOG_MAP.map Prod.fst).Nodup).sublist hsub
  · intro d
    rw [mem_keys_iff_isSome]
    have := isSome_foldl_addReverseEntry TASK_LOG_MAP [] d
    simpa [REVERSE_LOG_MAP, buildReverseLogMap, lookupA] using this

/-! ## `smart_selector.py`: `_get_model_num` and step-5 model selection

File names and paths are modelled as `List Char` (ASCII; Python compares
strings by code point, which is the `Char` order). -/

/-- The number denoted by a list of decimal digits (most significant first). -/
def natOfDigits (ds : List Char) : ℕ :=
  ds.foldl (fun n c => 10 * n + (c.toNat - '0'.toNat)) 0

/-- Match the regex `model_(\d+)\.pt` at the start of `l`.  The greedy `\d+`
takes the maximal digit run; since a digit is never `'.'`, no shorter run can
be followed by `'.'`, so if the maximal run is not followed by `.pt` there is
no match at this position at all. -/
def matchModelNumAt (l : List Char) : Option ℕ :=
  if ("model_".toList).isPrefixOf l then
    let rest := l.drop 6
    let ds := rest.takeWhile Char.isDigit
    if ds ≠ [] ∧ (".pt".toList).isPrefixOf (rest.drop ds.length) then
      some (natOfDigits ds)
    else none
  else none

/-- `re.search(r'model_(\d+)\.pt', name)`: leftmost match, scanning start
positions left to right. -/
def searchModelNum : List Char → Option ℕ
  | [] => none
  | c :: rest =>
      match matchModelNumAt (c :: rest) with
      | some n => some n
      | none => searchModelNum rest

/-- `SmartPlaySelector._get_model_num`: the captured number, `-1` when the
regex does not match. -/
def getModelNum (name : List Char) : ℤ :=
  match searchModelNum name with
  | some n => (n : ℤ)
  | none => -1

/-- `sorted(checkpoint_paths, key=self._get_model_num, reverse=True)`:
stable sort, descending by `_get_model_num`. -/
def sortedCheckpoints (files : List (List Char)) : List (List Char) :=
  files.mergeSort (fun a b => decide (getModelNum b ≤ getModelNum a))

/-- `latest_model = sorted_checkpoints[0]` (well-defined only after the
emptiness check in step 5). -/
def latestModel (files : List (List Char)) : Option (List Char) :=
  (sortedCheckpoints files).head?

/-- **C4.**  For every non-empty set of `model_*.pt` files in the selected
run directory, the checkpoint offered as "latest model" in manual step 5 is a
member of the set whose numeric suffix (`-1` for non-matching names) is
maximal. -/
theorem latest_model_max_suffix (files : List (List Char)) (hne : files ≠ []) :
    ∃ m, latestModel files = some m ∧ m ∈ files ∧
      ∀ f ∈ files, getModelNum f ≤ getModelNum m := by
  have hperm := List.mergeSort_perm files
    (fun a b => decide (getModelNum b ≤ getModelNum a))
  have hsorted := @List.sorted_mergeSort (List Char)
    (fun a b : List Char => decide (getModelNum b ≤ getModelNum a))
    (fun a b c hab hbc => by
      simp only [decide_eq_true_eq] at hab hbc ⊢
      exact le_trans hbc hab)
    (fun a b => by
      simp only [Bool.or_eq_true, decide_eq_true_eq]
      exact le_total (getModelNum b) (getModelNum a))
    files
  cases hs : sortedCheckpoints files with
  | nil =>
      have h0 : List.Perm (sortedCheckpoints files) files := hperm
      rw [hs] at h0
      have hlen := h0.length_eq
      simp only [List.length_nil] at hlen
      exact absurd (List.length_eq_zero.mp hlen.symm) hne
  | cons m rest =>
      refine ⟨m, by simp [latestModel, hs], ?_, ?_⟩
      · have : m ∈ sortedCheckpoints files := by simp [hs]
        exact (hperm.mem_iff).1 this
      · intro f hf
        have hf' : f ∈ sortedCheckpoints files := (hperm.mem_iff).2 hf
        rw [hs] at hf'
        rcases List.mem_cons.1 hf' with h | h
        · exact le_of_eq (h ▸ rfl)
        · have hsorted' : List.Pairwise
              (fun a b => decide (getModelNum b ≤ getModelNum a) = true) (m :: rest) := by
            rw [← hs]
            exact hsorted
          have := (List.pairwise_cons.1 hsorted').1 f h
          simpa using this

/-- Sanity: the embedded `_get_model_num` on typical names. -/
theorem getModelNum_values :
    getModelNum "model_1500.pt".toList = 1500 ∧
    getModelNum "model_model_3.pt".toList = 3 ∧
    getModelNum "model_abc.pt".toList = -1 := by
  refine ⟨by decide, by decide, by decide⟩

/-- Witness for C4 on a concrete set of checkpoint files. -/
theorem latest_model_max_suffix_witness :
    ∃ m, latestModel
        ["model_500.pt".toList, "model_1500.pt".toList, "model_50.pt".toList] = some m ∧
      m ∈ ["model_500.pt".toList, "model_1500.pt".toList, "model_50.pt".toList] ∧
      ∀ f ∈ ["model_500.pt".toList, "model_1500.pt".toList, "model_50.pt".toList],
        getModelNum f ≤ getModelNum m :=
  latest_model_max_suffix
    ["model_500.pt".toList, "model_1500.pt".toList, "model_50.pt".toList] (by simp)

/-! ## `smart_selector.py`: step-3 date options (`_select_checkpoint_path_manual`) -/

/-- Shape check for the fixed-width `\d{4}-\d{2}-\d{2}` date group. -/
def dateShape (l : List Char) : Bool :=
  match l with
  | [a, b, c, d, e, f, g, h, i, j] =>
      a.isDigit && b.isDigit && c.isDigit && d.isDigit && e == '-' &&
      f.isDigit && g.isDigit && h == '-' && i.isDigit && j.isDigit
  | _ => false

/-- Shape check for the fixed-width `\d{2}-\d{2}-\d{2}` time group. -/
def timeShape (l : List Char) : Bool :=
  match l with
  | [a, b, c, d, e, f, g, h] =>
      a.isDigit && b.isDigit && c == '-' && d.isDigit && e.isDigit &&
      f == '-' && g.isDigit && h.isDigit
  | _ => false

/-- `re.match` of `^(\d{4}-\d{2}-\d{2})_(\d{2}-\d{2}-\d{2})(?:_(.*))?$` on a
run-directory name: the date group and the optional run-name group.  All
groups are fixed-width except the trailing `.*`, so matching is deterministic. -/
def matchRunDir (s : List Char) : Option (List Char × Option (List Char)) :=
  let date := s.take 10
  let rest := s.drop 10
  if dateShape date then
    match rest with
    | '_' :: r2 =>
        let time := r2.take 8
        let r3 := r2.drop 8
        if timeShape time then
          match r3 with
          | [] => some (date, none)
          | '_' :: nm => some (date, some nm)
          | _ => none
        else none
    | _ => none
  else none

/-- One loop iteration of the `date_to_run_names` construction, restricted to
the keys (dict keys in insertion order: first occurrence of each date). -/
def addDateKey (acc : List (List Char)) (nm : List Char) : List (List Char) :=
  match matchRunDir nm with
  | some (date, _) => if date ∈ acc then acc else acc ++ [date]
  | none => acc

/-- The keys of `date_to_run_names` after the loop over `all_run_dirs`. -/
def dateKeys (dirs : List (List Char)) : List (List Char) :=
  dirs.foldl addDateKey []

/-- `sorted(keys, reverse=True)`: Python string sort is lexicographic by code
point, which is exactly the `LinearOrder` on `List Char`. -/
def sortDescLex (l : List (List Char)) : List (List Char) :=
  l.mergeSort (fun a b => decide (b ≤ a))

/-- `options_list` of manual step 3. -/
def dateOptions (dirs : List (List Char)) : List (List Char) :=
  sortDescLex (dateKeys dirs)

theorem mem_addDateKey (acc : List (List Char)) (nm d : List Char) :
    d ∈ addDateKey acc nm ↔ d ∈ acc ∨ ∃ r, matchRunDir nm = some (d, r) := by
  unfold addDateKey
  cases hm : matchRunDir nm with
  | none => simp
  | some p =>
      obtain ⟨date, rn⟩ := p
      have hiff : (∃ r, (some (date, rn) : Option (List Char × Option (List Char)))
          = some (d, r)) ↔ d = date := by
        constructor
        · rintro ⟨r, hr⟩
          injection hr with hr
          cases hr
          rfl
        · rintro rfl
          exact ⟨rn, rfl⟩
      show d ∈ (if date ∈ acc then acc else acc ++ [date]) ↔
          d ∈ acc ∨ ∃ r, (some (date, rn) : Option (List Char × Option (List Char)))
            = some (d, r)
      by_cases hmem : date ∈ acc
      · rw [if_pos hmem, hiff]
        constructor
        · exact Or.inl
        · rintro (h | rfl)
          · exact h
          · exact hmem
      · rw [if_neg hmem, hiff]
        simp [List.mem_append, eq_comm]

theorem mem_dateKeys_foldl (dirs : List (List Char)) (acc : List (List Char))
    (d : List Char) :
    d ∈ dirs.foldl addDateKey acc ↔
      d ∈ acc ∨ ∃ nm ∈ dirs, ∃ r, matchRunDir nm = some (d, r) := by
  induction dirs generalizing acc with
  | nil => simp
  | cons nm tl ih =>
      simp only [List.foldl_cons, ih (addDateKey acc nm), mem_addDateKey,
        List.mem_cons]
      constructor
      · rintro ((h | h) | ⟨nm', hnm', h⟩)
        · exact Or.inl h
        · exact Or.inr ⟨nm, Or.inl rfl, h⟩
        · exact Or.inr ⟨nm', Or.inr hnm', h⟩
      · rintro (h | ⟨nm', (rfl | hnm'), h⟩)
        · exact Or.inl (Or.inl h)
        · exact Or.inl (Or.inr h)
        · exact Or.inr ⟨nm', hnm', h⟩

theorem nodup_dateKeys_foldl (dirs : List (List Char)) (acc : List (List Char))
    (h : acc.Nodup) : (dirs.foldl addDateKey acc).Nodup := by
  induction dirs generalizing acc with
  | nil => exact h
  | cons nm tl ih =>
      refine ih (addDateKey acc nm) ?_
      unfold addDateKey
      cases hm : matchRunDir nm with
      | none => exact h
      | some p =>
          obtain ⟨date, rn⟩ := p
          show (if date ∈ acc then acc else acc ++ [date]).Nodup
          by_cases hmem : date ∈ acc
          · rw [if_pos hmem]
            exact h
          · rw [if_neg hmem]
            simp [List.nodup_append, h, hmem]

/-- In a strictly descending list, every member is at most the head. -/
theorem head_max_of_strict_desc (l : List (List Char))
    (hp : List.Pairwise (fun a b : List Char => b < a) l) (d : List Char)
    (hd : d ∈ l) (h : l ≠ []) : d ≤ l.head h := by
  cases l with
  | nil => exact absurd rfl h
  | cons m rest =>
      rw [List.head_cons]
      rcases List.mem_cons.1 hd with rfl | hd'
      · exact le_refl d
      · exact le_of_lt ((List.pairwise_cons.1 hp).1 d hd')

/-- **C9.**  The date options of manual step 3 are exactly the distinct date
prefixes of the run-directory names matching
`<YYYY-MM-DD>_<HH-MM-SS>[_<run-name>]`, listed in strictly decreasing
lexicographic order, so the first entry is the lexicographic maximum;
non-matching names contribute no option. -/
theorem date_options_lex_desc (dirs : List (List Char)) :
    (∀ d, d ∈ dateOptions dirs ↔ ∃ nm ∈ dirs, ∃ r, matchRunDir nm = some (d, r)) ∧
    List.Pairwise (fun a b : List Char => b < a) (dateOptions dirs) ∧
    ∀ (h : dateOptions dirs ≠ []) (d : List Char), d ∈ dateOptions dirs →
      d ≤ (dateOptions dirs).head h := by
  have hperm : List.Perm (dateOptions dirs) (dateKeys dirs) :=
    List.mergeSort_perm (dateKeys dirs) (fun a b => decide (b ≤ a))
  have hsorted : List.Pairwise (fun a b : List Char => decide (b ≤ a) = true)
      (dateOptions dirs) :=
    List.sorted_mergeSort
      (fun a b c hab hbc => by
        simp only [decide_eq_true_eq] at hab hbc ⊢
        exact le_trans hbc hab)
      (fun a b => by
        simp only [Bool.or_eq_true, decide_eq_true_eq]
        exact le_total b a)
      (dateKeys dirs)
  have hnodup : (dateOptions dirs).Nodup :=
    hperm.symm.nodup (nodup_dateKeys_foldl dirs [] List.nodup_nil)
  have hstrict : List.Pairwise (fun a b : List Char => b < a) (dateOptions dirs) := by
    refine (hsorted.and hnodup).imp ?_
    rintro a b ⟨hle, hne⟩
    simp only [decide_eq_true_eq] at hle
    exact lt_of_le_of_ne hle (fun hba => hne hba.symm)
  refine ⟨?_, hstrict, ?_⟩
  · intro d
    rw [hperm.mem_iff]
    simpa using mem_dateKeys_foldl dirs [] d
  · intro h d hd
    exact head_max_of_strict_desc (dateOptions dirs) hstrict d hd h

/-- Witness for C9 on concrete run-directory names (one matching with a run
name, one matching without, one junk entry). -/
theorem date_options_lex_desc_witness :
    "2024-01-01".toList ∈ dateOptions
      ["2024-01-02_10-00-00".toList, "2024-01-01_09-30-00_run1".toList, "junk".toList] ∧
    ∀ h : dateOptions
        ["2024-01-02_10-00-00".toList, "2024-01-01_09-30-00_run1".toList, "junk".toList]
        ≠ [],
      "2024-01-01".toList ≤
        (dateOptions
          ["2024-01-02_10-00-00".toList, "2024-01-01_09-30-00_run1".toList,
           "junk".toList]).head h := by
  have hmem : "2024-01-01".toList ∈ dateOptions
      ["2024-01-02_10-00-00".toList, "2024-01-01_09-30-00_run1".toList, "junk".toList] :=
    ((date_options_lex_desc
        ["2024-01-02_10-00-00".toList, "2024-01-01_09-30-00_run1".toList,
         "junk".toList]).1 "2024-01-01".toList).mpr
      ⟨"2024-01-01_09-30-00_run1".toList, by simp, some "run1".toList, by decide⟩
  exact ⟨hmem, fun h => (date_options_lex_desc
      ["2024-01-02_10-00-00".toList, "2024-01-01_09-30-00_run1".toList,
       "junk".toList]).2.2 h _ hmem⟩

/-! ## `smart_selector.py`: `_select_motion_file` latest-version filtering -/

/-- Split a directory name on `re.compile(r'^(.*?):v(\d+)$')`.  Because the
`\d+` group is anchored at the end of the string, the name matches exactly
when it ends in `:v<digits>` with a non-empty all-digit tail, and the split
point is unique (the all-digit tail cannot contain another `':'`); the lazy
`(.*?)` therefore captures everything before that final `:v`. -/
def splitVersion (dirName : List Char) : Option (List Char × ℕ) :=
  let rev := dirName.reverse
  let ds := rev.takeWhile Char.isDigit
  if ds.isEmpty then none
  else
    match rev.drop ds.length with
    | 'v' :: ':' :: restRev => some (restRev.reverse, natOfDigits ds.reverse)
    | _ => none

/-- A `artifacts/**/motion.npz` path: its parent-directory name plus an
abstract identity distinguishing distinct paths with equal parent names. -/
structure MotionPath where
  parent : List Char
  tag : ℕ
deriving DecidableEq

/-- `base_name`: the captured prefix, or the whole directory name when the
version regex does not match. -/
def motionBase (p : MotionPath) : List Char :=
  match splitVersion p.parent with
  | some (b, _) => b
  | none => p.parent

/-- `version`: the captured number, or `-1` when the regex does not match. -/
def motionVersion (p : MotionPath) : ℤ :=
  match splitVersion p.parent with
  | some (_, v) => (v : ℤ)
  | none => -1

/-- One iteration of the `_select_motion_file` loop:
`if base_name not in latest_motions or version > latest_motions[base_name][0]:
latest_motions[base_name] = (version, path)`. -/
def addMotion (acc : List (List Char × (ℤ × MotionPath))) (p : MotionPath) :
    List (List Char × (ℤ × MotionPath)) :=
  match lookupA acc (motionBase p) with
  | none => updateA acc (motionBase p) (motionVersion p, p)
  | some (v0, _) =>
      if v0 < motionVersion p then updateA acc (motionBase p) (motionVersion p, p)
      else acc

/-- The `latest_motions` dict after the loop over all motion paths. -/
def latestMotions (paths : List MotionPath) : List (List Char × (ℤ × MotionPath)) :=
  paths.foldl addMotion []

/-- `motion_files = sorted([path for version, path in latest_motions.values()],
key=lambda p: p.parent.name)`. -/
def motionFiles (paths : List MotionPath) : List MotionPath :=
  ((latestMotions paths).map (fun e => e.2.2)).mergeSort
    (fun a b => decide (a.parent ≤ b.parent))

/-- Invariant of the `latest_motions` loop: every entry holds an already-seen
path whose base is the key and whose version is both the stored one and
maximal among seen paths of that base; a key is present exactly when some
seen path has that base; keys are distinct. -/
def MotionInv (processed : List MotionPath)
    (acc : List (List Char × (ℤ × MotionPath))) : Prop :=
  (∀ e ∈ acc, e.2.2 ∈ processed ∧ motionBase e.2.2 = e.1 ∧
     motionVersion e.2.2 = e.2.1 ∧
     ∀ p ∈ processed, motionBase p = e.1 → motionVersion p ≤ e.2.1) ∧
  (∀ b, (lookupA acc b).isSome ↔ ∃ p ∈ processed, motionBase p = b) ∧
  (acc.map Prod.fst).Nodup

theorem lookupA_mem {κ α : Type} [DecidableEq κ] (m : List (κ × α)) (k : κ) (v : α)
    (h : lookupA m k = some v) : (k, v) ∈ m := by
  induction m with
  | nil => simp [lookupA] at h
  | cons hd tl ih =>
      obtain ⟨k0, w⟩ := hd
      by_cases h0 : k0 = k
      · subst h0
        simp [lookupA] at h
        simp [h]
      · simp only [lookupA, if_neg h0] at h
        exact List.mem_cons_of_mem _ (ih h)

theorem isSome_lookupA_of_mem {κ α : Type} [DecidableEq κ] (m : List (κ × α))
    (e : κ × α) (h : e ∈ m) : (lookupA m e.1).isSome := by
  rw [← mem_keys_iff_isSome]
  exact List.mem_map.mpr ⟨e, h, rfl⟩

theorem mem_updateA_nodup {κ α : Type} [DecidableEq κ] (m : List (κ × α)) (k : κ)
    (v : α) (hnd : (m.map Prod.fst).Nodup) (e : κ × α) (he : e ∈ updateA m k v) :
    e = (k, v) ∨ (e ∈ m ∧ e.1 ≠ k) := by
  induction m with
  | nil =>
      simp only [updateA, List.mem_singleton] at he
      exact Or.inl he
  | cons hd tl ih =>
      obtain ⟨k0, w⟩ := hd
      simp only [List.map_cons, List.nodup_cons] at hnd
      by_cases h0 : k0 = k
      · subst h0
        have hup : updateA ((k0, w) :: tl) k0 v = (k0, v) :: tl := by
          simp [updateA]
        rw [hup] at he
        rcases List.mem_cons.1 he with h | h
        · exact Or.inl h
        · refine Or.inr ⟨List.mem_cons_of_mem _ h, ?_⟩
          intro hk
          exact hnd.1 (hk ▸ List.mem_map.mpr ⟨e, h, rfl⟩)
      · have hup : updateA ((k0, w) :: tl) k v = (k0, w) :: updateA tl k v := by
          simp [updateA, h0]
        rw [hup] at he
        rcases List.mem_cons.1 he with h | h
        · refine Or.inr ⟨?_, ?_⟩
          · rw [h]
            exact List.mem_cons_self _ _
          · rw [h]
            exact h0
        · rcases ih hnd.2 h with h | ⟨hm, hk⟩
          · exact Or.inl h
          · exact Or.inr ⟨List.mem_cons_of_mem _ hm, hk⟩

theorem lookupA_unique_of_nodup {κ α : Type} [DecidableEq κ] (m : List (κ × α))
    (k : κ) (v : α) (hnd : (m.map Prod.fst).Nodup) (hl : lookupA m k = some v)
    (e : κ × α) (he : e ∈ m) (hk : e.1 = k) : e = (k, v) := by
  induction m with
  | nil => simp at he
  | cons hd tl ih =>
      obtain ⟨k0, w⟩ := hd
      simp only [List.map_cons, List.nodup_cons] at hnd
      rcases List.mem_cons.1 he with heq | he
      · have hk0 : k0 = k := by
          rw [heq] at hk
          exact hk
        subst hk0
        have hl' : some w = some v := by
          have := hl
          simp only [lookupA, if_pos rfl] at this
          exact this
        injection hl' with hwv
        rw [heq, hwv]
      · have h0 : k0 ≠ k := by
          intro h0
          subst h0
          rw [← hk] at hnd
          exact hnd.1 (List.mem_map.mpr ⟨e, he, rfl⟩)
        have hl' : lookupA tl k = some v := by
          have := hl
          simp only [lookupA, if_neg h0] at this
          exact this
        exact ih hnd.2 hl' he

theorem keys_updateA_present {κ α : Type} [DecidableEq κ] (m : List (κ × α))
    (k : κ) (v : α) (h : (lookupA m k).isSome) :
    (updateA m k v).map Prod.fst = m.map Prod.fst := by
  induction m with
  | nil => simp [lookupA] at h
  | cons hd tl ih =>
      obtain ⟨k0, w⟩ := hd
      by_cases h0 : k0 = k
      · subst h0
        simp [updateA]
      · simp only [lookupA, if_neg h0] at h
        simp [updateA, if_neg h0, ih h]

theorem keys_updateA_absent {κ α : Type} [DecidableEq κ] (m : List (κ × α))
    (k : κ) (v : α) (h : lookupA m k = none) :
    (updateA m k v).map Prod.fst = m.map Prod.fst ++ [k] := by
  induction m with
  | nil => simp [updateA]
  | cons hd tl ih =>
      obtain ⟨k0, w⟩ := hd
      by_cases h0 : k0 = k
      · subst h0
        simp [lookupA] at h
      · simp only [lookupA, if_neg h0] at h
        simp [updateA, if_neg h0, ih h]

theorem motionInv_step (processed : List MotionPath)
    (acc : List (List Char × (ℤ × MotionPath))) (p : MotionPath)
    (h : MotionInv processed acc) : MotionInv (processed ++ [p]) (addMotion acc p) := by
  obtain ⟨h1, h2, h3⟩ := h
  unfold addMotion
  cases hl : lookupA acc (motionBase p) with
  | none =>
      have hkeys : motionBase p ∉ acc.map Prod.fst := by
        rw [mem_keys_iff_isSome, hl]
        simp
      refine ⟨?_, ?_, ?_⟩
      · intro e he
        rcases mem_updateA_nodup acc (motionBase p) (motionVersion p, p) h3 e he with
          heq | ⟨hm, hk⟩
        · subst heq
          refine ⟨List.mem_append.mpr (Or.inr (List.mem_singleton.mpr rfl)), rfl, rfl, ?_⟩
          intro x hx hbx
          rcases List.mem_append.1 hx with hx | hx
          · exfalso
            have hsome : (lookupA acc (motionBase p)).isSome :=
              (h2 (motionBase p)).mpr ⟨x, hx, hbx⟩
            rw [hl] at hsome
            simp at hsome
          · rw [List.mem_singleton] at hx
            subst hx
            exact le_refl _
        · obtain ⟨hq, hb, hv, hmax⟩ := h1 e hm
          refine ⟨List.mem_append.mpr (Or.inl hq), hb, hv, ?_⟩
          intro x hx hbx
          rcases List.mem_append.1 hx with hx | hx
          · exact hmax x hx hbx
          · rw [List.mem_singleton] at hx
            subst hx
            exact absurd hbx.symm hk
      · intro b
        rw [lookupA_updateA_isSome, h2 b]
        constructor
        · rintro (⟨x, hx, hbx⟩ | rfl)
          · exact ⟨x, List.mem_append.mpr (Or.inl hx), hbx⟩
          · exact ⟨p, List.mem_append.mpr (Or.inr (List.mem_singleton.mpr rfl)), rfl⟩
        · rintro ⟨x, hx, hbx⟩
          rcases List.mem_append.1 hx with hx | hx
          · exact Or.inl ⟨x, hx, hbx⟩
          · rw [List.mem_singleton] at hx
            subst hx
            exact Or.inr hbx.symm
      · rw [keys_updateA_absent acc _ _ hl]
        simp [List.nodup_append, h3, hkeys]
  | some pair =>
      obtain ⟨v0, q0⟩ := pair
      have he0 : (motionBase p, (v0, q0)) ∈ acc := lookupA_mem acc _ _ hl
      obtain ⟨hq0, hb0, hv0, hmax0⟩ := h1 _ he0
      show MotionInv (processed ++ [p])
        (if v0 < motionVersion p then updateA acc (motionBase p) (motionVersion p, p)
         else acc)
      by_cases hlt : v0 < motionVersion p
      · rw [if_pos hlt]
        refine ⟨?_, ?_, ?_⟩
        · intro e he
          rcases mem_updateA_nodup acc (motionBase p) (motionVersion p, p) h3 e he with
            heq | ⟨hm, hk⟩
          · subst heq
            refine ⟨List.mem_append.mpr (Or.inr (List.mem_singleton.mpr rfl)), rfl, rfl, ?_⟩
            intro x hx hbx
            rcases List.mem_append.1 hx with hx | hx
            · exact le_trans (hmax0 x hx hbx) (le_of_lt hlt)
            · rw [List.mem_singleton] at hx
              subst hx
              exact le_refl _
          · obtain ⟨hq, hb, hv, hmax⟩ := h1 e hm
            refine ⟨List.mem_append.mpr (Or.inl hq), hb, hv, ?_⟩
            intro x hx hbx
            rcases List.mem_append.1 hx with hx | hx
            · exact hmax x hx hbx
            · rw [List.mem_singleton] at hx
              subst hx
              exact absurd hbx.symm hk
        · intro b
          rw [lookupA_updateA_isSome, h2 b]
          constructor
          · rintro (⟨x, hx, hbx⟩ | rfl)
            · exact ⟨x, List.mem_append.mpr (Or.inl hx), hbx⟩
            · exact ⟨p, List.mem_append.mpr (Or.inr (List.mem_singleton.mpr rfl)), rfl⟩
          · rintro ⟨x, hx, hbx⟩
            rcases List.mem_append.1 hx with hx | hx
            · exact Or.inl ⟨x, hx, hbx⟩
            · rw [List.mem_singleton] at hx
              subst hx
              exact Or.inr hbx.symm
        · rw [keys_updateA_present acc _ _ (by rw [hl]; simp)]
          exact h3
      · rw [if_neg hlt]
        refine ⟨?_, ?_, h3⟩
        · intro e he
          obtain ⟨hq, hb, hv, hmax⟩ := h1 e he
          refine ⟨List.mem_append.mpr (Or.inl hq), hb, hv, ?_⟩
          intro x hx hbx
          rcases List.mem_append.1 hx with hx | hx
          · exact hmax x hx hbx
          · rw [List.mem_singleton] at hx
            subst hx
            have heq : e = (motionBase x, (v0, q0)) :=
              lookupA_unique_of_nodup acc (motionBase x) (v0, q0) h3 hl e he hbx.symm
            rw [heq]
            exact le_of_not_lt hlt
        · intro b
          rw [h2 b]
          constructor
          · rintro ⟨x, hx, hbx⟩
            exact ⟨x, List.mem_append.mpr (Or.inl hx), hbx⟩
          · rintro ⟨x, hx, hbx⟩
            rcases List.mem_append.1 hx with hx | hx
            · exact ⟨x, hx, hbx⟩
            · rw [List.mem_singleton] at hx
              subst hx
              have hsome : (lookupA acc b).isSome := by
                rw [← hbx, hl]
                simp
              rw [← h2 b]
              exact hsome
      
theorem motionInv_foldl (paths : List MotionPath) (processed : List MotionPath)
    (acc : List (List Char × (ℤ × MotionPath))) (h : MotionInv processed acc) :
    MotionInv (processed ++ paths) (paths.foldl addMotion acc) := by
  induction paths generalizing processed acc with
  | nil => simpa using h
  | cons p tl ih =>
      have := ih (processed ++ [p]) (addMotion acc p) (motionInv_step processed acc p h)
      simpa [List.append_assoc] using this

theorem motionInv_latestMotions (paths : List MotionPath) :
    MotionInv paths (latestMotions paths) := by
  have hbase : MotionInv [] [] := by
    refine ⟨by simp, ?_, by simp⟩
    intro b
    simp [lookupA]
  have := motionInv_foldl paths [] [] hbase
  simpa [latestMotions] using this

theorem length_filter_map_le_one {κ α β : Type} [DecidableEq κ]
    (acc : List (κ × α)) (f : κ × α → β) (pred : β → Bool) (b : κ)
    (hnd : (acc.map Prod.fst).Nodup)
    (hp : ∀ e ∈ acc, pred (f e) = true → e.1 = b) :
    ((acc.map f).filter pred).length ≤ 1 := by
  induction acc with
  | nil => simp
  | cons e rest ih =>
      simp only [List.map_cons, List.nodup_cons] at hnd
      simp only [List.map_cons, List.filter_cons]
      cases hpe : pred (f e) with
      | false =>
          rw [if_neg (by simp [hpe])]
          exact ih hnd.2 (fun e' he' hpe' => hp e' (List.mem_cons_of_mem _ he') hpe')
      | true =>
          rw [if_pos (by simp [hpe])]
          have hrest : (rest.map f).filter pred = [] := by
            rw [List.filter_eq_nil_iff]
            rintro y hy
            obtain ⟨e', he', rfl⟩ := List.mem_map.1 hy
            intro hpe'
            have hb' : e'.1 = b := hp e' (List.mem_cons_of_mem _ he') hpe'
            have hb : e.1 = b := hp e (List.mem_cons_self _ _) hpe
            exact hnd.1 ((hb.trans hb'.symm) ▸ List.mem_map.mpr ⟨e', he', rfl⟩)
          rw [hrest]
          simp

/-- **C10.**  The motion menu built by `_select_motion_file` contains, for
each base name occurring among the motion paths, exactly one entry; that
entry is one of the input paths, its version is maximal among paths of its
base (a parent directory without `:v<N>` counting as version `-1` under its
full name), and the menu is sorted by parent-directory name. -/
theorem motion_menu_latest_versions (paths : List MotionPath) :
    (∀ b : List Char,
       (∃ q ∈ motionFiles paths, motionBase q = b) ↔
         (∃ p ∈ paths, motionBase p = b)) ∧
    (∀ q ∈ motionFiles paths, q ∈ paths ∧
       ∀ p ∈ paths, motionBase p = motionBase q →
         motionVersion p ≤ motionVersion q) ∧
    (∀ b : List Char,
       ((motionFiles paths).filter (fun q => decide (motionBase q = b))).length ≤ 1) ∧
    List.Pairwise (fun a b : MotionPath => a.parent ≤ b.parent) (motionFiles paths) := by
  obtain ⟨h1, h2, h3⟩ := motionInv_latestMotions paths
  have hmf : motionFiles paths =
      ((latestMotions paths).map (fun e => e.2.2)).mergeSort
        (fun a b => decide (a.parent ≤ b.parent)) := rfl
  have hperm : List.Perm (motionFiles paths)
      ((latestMotions paths).map (fun e => e.2.2)) := by
    rw [hmf]
    exact List.mergeSort_perm ((latestMotions paths).map (fun e => e.2.2))
      (fun a b => decide (a.parent ≤ b.parent))
  refine ⟨?_, ?_, ?_, ?_⟩
  · intro b
    constructor
    · rintro ⟨q, hq, hbq⟩
      have hq' : q ∈ (latestMotions paths).map (fun e => e.2.2) := hperm.mem_iff.1 hq
      obtain ⟨e, he, rfl⟩ := List.mem_map.1 hq'
      exact ⟨e.2.2, (h1 e he).1, hbq⟩
    · rintro ⟨p, hp, hbp⟩
      have hsome : (lookupA (latestMotions paths) b).isSome := (h2 b).mpr ⟨p, hp, hbp⟩
      obtain ⟨v, hv⟩ := Option.isSome_iff_exists.1 hsome
      have hmem : (b, v) ∈ latestMotions paths := lookupA_mem _ _ _ hv
      refine ⟨v.2, hperm.mem_iff.2 (List.mem_map.mpr ⟨(b, v), hmem, rfl⟩), ?_⟩
      exact (h1 (b, v) hmem).2.1
  · intro q hq
    have hq' : q ∈ (latestMotions paths).map (fun e => e.2.2) := hperm.mem_iff.1 hq
    obtain ⟨e, he, rfl⟩ := List.mem_map.1 hq'
    obtain ⟨hmem, hb, hv, hmax⟩ := h1 e he
    refine ⟨hmem, ?_⟩
    intro p hp hbp
    rw [hv]
    exact hmax p hp (hbp.trans hb)
  · intro b
    have hpf := hperm.filter (fun q => decide (motionBase q = b))
    rw [hpf.length_eq]
    refine length_filter_map_le_one (latestMotions paths) (fun e => e.2.2)
      (fun q => decide (motionBase q = b)) b h3 ?_
    intro e he hpe
    simp only [decide_eq_true_eq] at hpe
    rw [← (h1 e he).2.1, hpe]
  · have hsorted : List.Pairwise
        (fun a b : MotionPath => decide (a.parent ≤ b.parent) = true)
        (motionFiles paths) := by
      rw [hmf]
      exact @List.sorted_mergeSort MotionPath
        (fun a b : MotionPath => decide (a.parent ≤ b.parent))
        (fun a b c hab hbc => by
          simp only [decide_eq_true_eq] at hab hbc ⊢
          exact le_trans hab hbc)
        (fun a b => by
          simp only [Bool.or_eq_true, decide_eq_true_eq]
          exact le_total a.parent b.parent)
        ((latestMotions paths).map (fun e => e.2.2))
    exact hsorted.imp (fun h => by simpa using h)

/-- Witness for C10: among `walk:v1`, `walk:v3` and unversioned `dance`, the
menu's `walk` entry is the `v3` path. -/
theorem motion_menu_latest_versions_witness :
    ∃ q : MotionPath,
      q ∈ motionFiles
        [⟨"walk:v1".toList, 0⟩, ⟨"walk:v3".toList, 1⟩, ⟨"dance".toList, 2⟩] ∧
      motionBase q = "walk".toList ∧ motionVersion q = 3 := by
  obtain ⟨q, hq, hbq⟩ :=
    ((motion_menu_latest_versions
        [⟨"walk:v1".toList, 0⟩, ⟨"walk:v3".toList, 1⟩, ⟨"dance".toList, 2⟩]).1
      "walk".toList).mpr ⟨⟨"walk:v1".toList, 0⟩, by simp, by decide⟩
  obtain ⟨hqp, hmax⟩ :=
    (motion_menu_latest_versions
        [⟨"walk:v1".toList, 0⟩, ⟨"walk:v3".toList, 1⟩, ⟨"dance".toList, 2⟩]).2.1 q hq
  have h3 : (3 : ℤ) ≤ motionVersion q := by
    have hb : motionBase ⟨"walk:v3".toList, 1⟩ = motionBase q := by
      rw [hbq]
      decide
    have hle := hmax ⟨"walk:v3".toList, 1⟩ (by simp) hb
    have hv : motionVersion ⟨"walk:v3".toList, 1⟩ = 3 := by decide
    rw [hv] at hle
    exact hle
  refine ⟨q, hq, hbq, ?_⟩
  simp only [List.mem_cons, List.mem_singleton, List.not_mem_nil, or_false] at hqp
  rcases hqp with rfl | rfl | rfl
  · exfalso
    revert h3
    decide
  · decide
  · exfalso
    revert hbq
    decide

/-! ## `smart_selector.py`: `_find_latest_checkpoint` and step 0 (fast start)

A filesystem path is modelled by its list of components below the root
(POSIX, `os.path.sep = '/'`, absolute paths as produced by `Path.rglob` on an
absolute base); its string form puts `'/'` before every component. -/

/-- `str(path)` for an absolute path with the given components. -/
def renderPath (comps : List (List Char)) : List Char :=
  (comps.map (fun c => '/' :: c)).flatten

theorem renderPath_cons (c : List Char) (cs : List (List Char)) :
    renderPath (c :: cs) = '/' :: (c ++ renderPath cs) := by
  simp [renderPath]

/-- `f"{os.path.sep}{log_dir_name}{os.path.sep}"`. -/
def pathSepWrapped (name : List Char) : List Char := '/' :: (name ++ ['/'])

/-- The Python substring test `f"/{name}/" in latest_path_str`. -/
def containsWrapped (path name : List Char) : Bool :=
  decide (pathSepWrapped name <:+: path)

/-- Python `max(iterable, key=f)`: first element with maximal key (updates
only on strict increase). -/
def pyMax {α : Type} (key : α → ℚ) : List α → Option α
  | [] => none
  | x :: xs => some (xs.foldl (fun acc a => if key acc < key a then a else acc) x)

theorem pyMax_foldl_spec {α : Type} (key : α → ℚ) (xs : List α) (x0 : α) :
    (xs.foldl (fun acc a => if key acc < key a then a else acc) x0) ∈ x0 :: xs ∧
    ∀ y ∈ x0 :: xs,
      key y ≤ key (xs.foldl (fun acc a => if key acc < key a then a else acc) x0) := by
  induction xs generalizing x0 with
  | nil => simp
  | cons a xs ih =>
      simp only [List.foldl_cons]
      obtain ⟨hmem, hmax⟩ := ih (if key x0 < key a then a else x0)
      constructor
      · rcases List.mem_cons.1 hmem with h | h
        · rw [h]
          by_cases hc : key x0 < key a
          · rw [if_pos hc]
            exact List.mem_cons_of_mem _ (List.mem_cons_self _ _)
          · rw [if_neg hc]
            exact List.mem_cons_self _ _
        · exact List.mem_cons_of_mem _ (List.mem_cons_of_mem _ h)
      · intro y hy
        rcases List.mem_cons.1 hy with rfl | hy
        · refine le_trans ?_ (hmax _ (List.mem_cons_self _ _))
          by_cases hc : key y < key a
          · rw [if_pos hc]
            exact le_of_lt hc
          · rw [if_neg hc]
        · rcases List.mem_cons.1 hy with rfl | hy
          · refine le_trans ?_ (hmax _ (List.mem_cons_self _ _))
            by_cases hc : key x0 < key y
            · rw [if_pos hc]
            · rw [if_neg hc]
              exact le_of_not_lt hc
          · exact hmax y (List.mem_cons_of_mem _ hy)

theorem pyMax_spec {α : Type} (key : α → ℚ) (l : List α) (hne : l ≠ []) :
    ∃ m, pyMax key l = some m ∧ m ∈ l ∧ ∀ y ∈ l, key y ≤ key m := by
  cases l with
  | nil => exact absurd rfl hne
  | cons x xs =>
      obtain ⟨hmem, hmax⟩ := pyMax_foldl_spec key xs x
      exact ⟨_, rfl, hmem, hmax⟩

/-- The keys of `REVERSE_LOG_MAP`, as character lists. -/
def reverseLogMapKeys : List (List Char) := REVERSE_LOG_MAP.map (fun e => e.1.toList)

/-- `_find_latest_checkpoint`: `None` models an unset
`latest_checkpoint_info` (missing `logs/rsl_rl`, no `model_*.pt` file, or no
known log-dir name in the path). -/
def findLatestCheckpoint (logRootExists : Bool) (allModels : List (List (List Char)))
    (mtime : List (List Char) → ℚ) : Option (List (List Char) × List Char) :=
  if logRootExists = false then none
  else
    match pyMax mtime allModels with
    | none => none
    | some latest =>
        match reverseLogMapKeys.find? (fun d => containsWrapped (renderPath latest) d) with
        | some d => some (latest, d)
        | none => none

/-- The two start modes of step 0. -/
inductive StartOption where
  | fastStart
  | manualSelect
deriving DecidableEq

/-- The options of step 0 in `run_selection_flow`: fast start is inserted
in front exactly when `latest_checkpoint_info` is set. -/
def stepZeroOptions (info : Option (List (List Char) × List Char)) : List StartOption :=
  match info with
  | some _ => [.fastStart, .manualSelect]
  | none => [.manualSelect]

theorem eq_head_of_noSlash (name : List Char) :
    ∀ (c t u : List Char), '/' ∉ name → '/' ∉ c →
      (u = [] ∨ u.head? = some '/') →
      name ++ '/' :: t = c ++ u → name = c ∧ u = '/' :: t := by
  induction name with
  | nil =>
      intro c t u _ hc hu heq
      cases c with
      | nil =>
          simp only [List.nil_append] at heq
          exact ⟨rfl, heq.symm⟩
      | cons ch c' =>
          simp only [List.nil_append, List.cons_append] at heq
          injection heq with h1 h2
          exact absurd (h1 ▸ List.mem_cons_self ch c') (h1 ▸ hc)
  | cons a name' ih =>
      intro c t u hname hc hu heq
      cases c with
      | nil =>
          simp only [List.nil_append, List.cons_append] at heq
          rcases hu with rfl | hu
          · simp at heq
          · rw [← heq] at hu
            simp only [List.head?_cons, Option.some.injEq] at hu
            exfalso
            apply hname
            rw [← hu]
            exact List.mem_cons_self _ _
      | cons ch c' =>
          simp only [List.cons_append] at heq
          injection heq with h1 h2
          subst h1
          have hname' : '/' ∉ name' := fun h => hname (List.mem_cons_of_mem _ h)
          have hc' : '/' ∉ c' := fun h => hc (List.mem_cons_of_mem _ h)
          obtain ⟨hn, hu'⟩ := ih c' t u hname' hc' hu h2
          exact ⟨by rw [hn], hu'⟩

theorem infix_tail_of_noSlash (c : List Char) :
    ∀ (v s p t : List Char), '/' ∉ c → p.head? = some '/' →
      s ++ p ++ t = c ++ v → p <:+: v := by
  induction c with
  | nil =>
      intro v s p t _ _ heq
      simp only [List.nil_append] at heq
      exact ⟨s, t, by rw [← heq]⟩
  | cons ch c' ih =>
      intro v s p t hc hp heq
      cases s with
      | nil =>
          simp only [List.nil_append, List.cons_append] at heq
          cases p with
          | nil => simp at hp
          | cons p0 p' =>
              simp only [List.head?_cons, Option.some.injEq] at hp
              simp only [List.cons_append] at heq
              injection heq with h1 h2
              refine absurd ?_ hc
              have hch : '/' = ch := hp.symm.trans h1
              rw [← hch]
              exact List.mem_cons_self _ _
      | cons x s' =>
          simp only [List.cons_append] at heq
          injection heq with h1 h2
          have hc' : '/' ∉ c' := fun h => hc (List.mem_cons_of_mem _ h)
          exact ih v s' p t hc' hp h2

/-- Core path lemma: for slash-free components and a slash-free name,
`"/name/"` is a substring of the rendered absolute path exactly when `name`
is a non-final path component. -/
theorem wrapped_infix_iff (comps : List (List Char)) (name : List Char)
    (hcomps : ∀ c ∈ comps, '/' ∉ c) (hname : '/' ∉ name) :
    pathSepWrapped name <:+: renderPath comps ↔ name ∈ comps.dropLast := by
  induction comps with
  | nil =>
      simp [renderPath, pathSepWrapped, List.infix_nil]
  | cons c cs ih =>
      have hc : '/' ∉ c := hcomps c (List.mem_cons_self _ _)
      have hcs : ∀ x ∈ cs, '/' ∉ x := fun x hx => hcomps x (List.mem_cons_of_mem _ hx)
      rw [renderPath_cons]
      constructor
      · rintro ⟨s, t, hst⟩
        cases s with
        | nil =>
            have heq : name ++ '/' :: t = c ++ renderPath cs := by
              have h0 : pathSepWrapped name ++ t = '/' :: (c ++ renderPath cs) := by
                simpa using hst
              simp only [pathSepWrapped, List.cons_append, List.append_assoc,
                List.singleton_append, List.cons.injEq, true_and] at h0
              exact h0
            cases cs with
            | nil =>
                exfalso
                simp only [renderPath, List.map_nil, List.flatten_nil,
                  List.append_nil] at heq
                exact hc (heq ▸ List.mem_append.mpr (Or.inr (List.mem_cons_self _ _)))
            | cons c2 cs' =>
                have hu : renderPath (c2 :: cs') = [] ∨
                    (renderPath (c2 :: cs')).head? = some '/' := by
                  rw [renderPath_cons]
                  exact Or.inr rfl
                obtain ⟨hn, _⟩ := eq_head_of_noSlash name c t (renderPath (c2 :: cs'))
                  hname hc hu heq
                rw [List.dropLast_cons₂]
                exact hn ▸ List.mem_cons_self _ _
        | cons x s' =>
            have heq : s' ++ pathSepWrapped name ++ t = c ++ renderPath cs := by
              have h0 := hst
              simp only [List.cons_append, List.cons.injEq] at h0
              exact h0.2
            have hinf : pathSepWrapped name <:+: renderPath cs :=
              infix_tail_of_noSlash c (renderPath cs) s' (pathSepWrapped name) t hc
                rfl heq
            have hmem := (ih hcs).1 hinf
            cases cs with
            | nil => simp at hmem
            | cons c2 cs' =>
                rw [List.dropLast_cons₂]
                exact List.mem_cons_of_mem _ hmem
      · intro hmem
        cases cs with
        | nil => simp at hmem
        | cons c2 cs' =>
            rw [List.dropLast_cons₂] at hmem
            rcases List.mem_cons.1 hmem with rfl | hmem
            · refine ⟨[], c2 ++ renderPath cs', ?_⟩
              rw [renderPath_cons]
              simp [pathSepWrapped, List.append_assoc]
            · have hinf : pathSepWrapped name <:+: renderPath (c2 :: cs') :=
                (ih hcs).2 hmem
              refine hinf.trans ?_
              rw [renderPath_cons]
              exact ⟨['/'] ++ c, [], by simp⟩

theorem pyMax_mem {α : Type} (key : α → ℚ) (l : List α) (m : α)
    (h : pyMax key l = some m) : m ∈ l := by
  cases l with
  | nil => simp [pyMax] at h
  | cons x xs =>
      have hspec := (pyMax_foldl_spec key xs x).1
      simp only [pyMax, Option.some.injEq] at h
      rw [h] at hspec
      exact hspec

/-- No log-dir key contains a path separator. -/
theorem reverseLogMapKeys_noSlash : ∀ n ∈ reverseLogMapKeys, '/' ∉ n := by decide

/-- The code's substring test `f"/{name}/" in str(path)` decides membership
of `name` among the path's components, as long as the final component (the
checkpoint file name) is not `name`. -/
theorem containsWrapped_iff (l : List (List Char)) (n : List Char)
    (hc : ∀ c ∈ l, '/' ∉ c) (hn : '/' ∉ n) (hlast : l.getLast? ≠ some n) :
    containsWrapped (renderPath l) n = true ↔ n ∈ l := by
  unfold containsWrapped
  rw [decide_eq_true_eq, wrapped_infix_iff l n hc hn]
  constructor
  · intro h
    exact (List.dropLast_sublist l).subset h
  · intro h
    have hne : l ≠ [] := List.ne_nil_of_mem h
    have hdec := List.dropLast_append_getLast hne
    rw [← hdec] at h
    rcases List.mem_append.1 h with h | h
    · exact h
    · rw [List.mem_singleton] at h
      exfalso
      apply hlast
      rw [List.getLast?_eq_getLast l hne, h]

/-- **C5.**  The fast-start checkpoint is the `model_*.pt` file with the
greatest modification time (Python `max(all_models, key=os.path.getmtime)`,
not the numeric suffix), and the fast-start option is offered in step 0 if
and only if that file's path contains a known task-group log-directory name
as a path component; otherwise only the manual flow is offered. -/
theorem fast_start_mtime_and_component
    (logRootExists : Bool) (allModels : List (List (List Char)))
    (mtime : List (List Char) → ℚ)
    (hwf : ∀ p ∈ allModels, ∀ c ∈ p, '/' ∉ c)
    (hlast : ∀ p ∈ allModels, ∀ n ∈ reverseLogMapKeys, p.getLast? ≠ some n) :
    (logRootExists = true → allModels ≠ [] →
      ∃ latest, pyMax mtime allModels = some latest ∧ latest ∈ allModels ∧
        ∀ f ∈ allModels, mtime f ≤ mtime latest) ∧
    (∀ l d, findLatestCheckpoint logRootExists allModels mtime = some (l, d) →
      pyMax mtime allModels = some l ∧ d ∈ reverseLogMapKeys ∧ d ∈ l) ∧
    (∀ l, pyMax mtime allModels = some l → logRootExists = true →
      (StartOption.fastStart ∈ stepZeroOptions
          (findLatestCheckpoint logRootExists allModels mtime) ↔
        ∃ n ∈ reverseLogMapKeys, n ∈ l)) ∧
    (findLatestCheckpoint logRootExists allModels mtime = none →
      stepZeroOptions (findLatestCheckpoint logRootExists allModels mtime) =
        [StartOption.manualSelect]) := by
  refine ⟨?_, ?_, ?_, ?_⟩
  · intro _ hne
    exact pyMax_spec mtime allModels hne
  · intro l d hfl
    unfold findLatestCheckpoint at hfl
    by_cases hroot : logRootExists = false
    · rw [if_pos hroot] at hfl
      exact absurd hfl (by simp)
    · rw [if_neg hroot] at hfl
      cases hmax : pyMax mtime allModels with
      | none =>
          rw [hmax] at hfl
          exact absurd hfl (by simp)
      | some latest =>
          rw [hmax] at hfl
          have hfl' : (match reverseLogMapKeys.find?
              (fun d => containsWrapped (renderPath latest) d) with
            | some d => some (latest, d)
            | none => none) = some (l, d) := hfl
          cases hf : reverseLogMapKeys.find?
              (fun d => containsWrapped (renderPath latest) d) with
          | none =>
              rw [hf] at hfl'
              exact absurd hfl' (by simp)
          | some d' =>
              rw [hf] at hfl'
              have h12 : latest = l ∧ d' = d := by
                injection hfl' with h
                injection h with h1 h2
                exact ⟨h1, h2⟩
              obtain ⟨h1, h2⟩ := h12
              have hdmem : d ∈ reverseLogMapKeys := h2 ▸ List.mem_of_find?_eq_some hf
              have hdp : containsWrapped (renderPath l) d = true := by
                rw [← h1, ← h2]
                exact List.find?_some hf
              have hlm : l ∈ allModels := by
                rw [← h1]
                exact pyMax_mem mtime allModels latest hmax
              refine ⟨congrArg some h1, hdmem, ?_⟩
              exact (containsWrapped_iff l d (hwf l hlm)
                (reverseLogMapKeys_noSlash d hdmem) (hlast l hlm d hdmem)).1 hdp
  · intro l hmax hroot
    have hlm : l ∈ allModels := pyMax_mem mtime allModels l hmax
    unfold findLatestCheckpoint
    rw [if_neg (by rw [hroot]; simp), hmax]
    show StartOption.fastStart ∈ stepZeroOptions
        (match reverseLogMapKeys.find? (fun d => containsWrapped (renderPath l) d) with
          | some d => some (l, d)
          | none => none) ↔ ∃ n ∈ reverseLogMapKeys, n ∈ l
    cases hf : reverseLogMapKeys.find?
        (fun d => containsWrapped (renderPath l) d) with
    | none =>
        constructor
        · intro hmem
          simp [stepZeroOptions] at hmem
        · rintro ⟨n, hn, hnl⟩
          exfalso
          have hsome : (reverseLogMapKeys.find?
              (fun d => containsWrapped (renderPath l) d)).isSome := by
            rw [List.find?_isSome]
            refine ⟨n, hn, ?_⟩
            exact (containsWrapped_iff l n (hwf l hlm)
              (reverseLogMapKeys_noSlash n hn) (hlast l hlm n hn)).2 hnl
          rw [hf] at hsome
          simp at hsome
    | some d =>
        constructor
        · intro _
          have hdmem : d ∈ reverseLogMapKeys := List.mem_of_find?_eq_some hf
          have hdp : containsWrapped (renderPath l) d = true := List.find?_some hf
          exact ⟨d, hdmem, (containsWrapped_iff l d (hwf l hlm)
            (reverseLogMapKeys_noSlash d hdmem) (hlast l hlm d hdmem)).1 hdp⟩
        · intro _
          simp [stepZeroOptions]
  · intro hnone
    rw [hnone]
    rfl

/-- Witness for C5: a single checkpoint under `logs/rsl_rl/g1_flat/...`
yields the fast-start option. -/
theorem fast_start_mtime_and_component_witness :
    StartOption.fastStart ∈ stepZeroOptions
      (findLatestCheckpoint true
        [["logs".toList, "rsl_rl".toList, "g1_flat".toList,
          "2024-01-01_10-00-00".toList, "model_9.pt".toList]]
        (fun _ => 0)) := by
  have h := fast_start_mtime_and_component true
    [["logs".toList, "rsl_rl".toList, "g1_flat".toList,
      "2024-01-01_10-00-00".toList, "model_9.pt".toList]]
    (fun _ => 0) (by decide) (by decide)
  exact (h.2.2.1
    ["logs".toList, "rsl_rl".toList, "g1_flat".toList,
     "2024-01-01_10-00-00".toList, "model_9.pt".toList]
    rfl rfl).mpr ⟨"g1_flat".toList, by decide, by decide⟩

/-! ## Terminal error paths (`smart_selector.py` and `edit_urdf_collisions.py`)

`sys.exit(n)` is modelled as `Except.error n`; reaching the simulation or a
selection result is `Except.ok`. -/

/-- `_interactive_menu`: an empty option list prints an error and calls
`sys.exit(1)`; a cancelled menu (`show()` returns `None`) prints and calls
`sys.exit(0)`; otherwise the chosen entry is returned.  `simple_term_menu`
only reports indices of shown entries, so the model clamps an out-of-range
index to the first entry. -/
def interactiveMenu {α : Type} (options : List α) (choice : Option ℕ) : Except ℕ α :=
  match options with
  | [] => .error 1
  | o :: os =>
      match choice with
      | none => .error 0
      | some i => .ok ((o :: os).getD i o)

/-- The filesystem state read by `_select_checkpoint_path_manual`:
whether `logs/rsl_rl/<log_dir_name>` exists, the names of its
subdirectories, and the `model_*.pt` file names of each run directory. -/
structure ManualFs where
  baseDirExists : Bool
  runDirs : List (List Char)
  modelFiles : List Char → List (List Char)

/-- `_select_checkpoint_path_manual` (manual steps 3, 4, 5/5b):
`c1..c4` are the user's responses to the successive menus.  The inner
`[] => .error 1` branch of the sort is unreachable (sorting a non-empty
list), mirroring that `sorted_checkpoints[0]` cannot fail after the
emptiness check. -/
def selectCheckpointPathManual (fs : ManualFs) (c1 c2 c3 c4 : Option ℕ) :
    Except ℕ (List Char) :=
  if fs.baseDirExists = false then .error 1
  else
    match interactiveMenu (dateOptions fs.runDirs) c1 with
    | .error e => .error e
    | .ok selectedDate =>
        match interactiveMenu
            (sortDescLex (fs.runDirs.filter (fun d => selectedDate.isPrefixOf d)))
            c2 with
        | .error e => .error e
        | .ok runDir =>
            if fs.modelFiles runDir = [] then .error 1
            else
              match sortedCheckpoints (fs.modelFiles runDir) with
              | [] => .error 1
              | latest :: rest =>
                  match interactiveMenu [Sum.inl latest, Sum.inr ()] c3 with
                  | .error e => .error e
                  | .ok (Sum.inr _) => interactiveMenu (latest :: rest) c4
                  | .ok (Sum.inl m) => .ok m

/-- Python `int(s)` on a stripped line: optional sign, then digits. -/
def pyParseInt (s : List Char) : Option ℤ :=
  match s with
  | '-' :: ds =>
      if ds ≠ [] ∧ ds.all Char.isDigit then some (-(natOfDigits ds : ℤ)) else none
  | '+' :: ds =>
      if ds ≠ [] ∧ ds.all Char.isDigit then some ((natOfDigits ds : ℤ)) else none
  | ds =>
      if ds ≠ [] ∧ ds.all Char.isDigit then some ((natOfDigits ds : ℤ)) else none

/-- `_select_num_envs`: the loop reads inputs until one resolves.  `none` in
the stream is a `KeyboardInterrupt` (→ `sys.exit(0)` immediately); an empty
line takes the default; a positive integer is accepted; anything else
re-prompts.  The overall `none` means the modelled stream ran out while the
real loop would still be prompting. -/
def selectNumEnvs (dflt : ℤ) : List (Option (List Char)) → Option (Except ℕ ℤ)
  | [] => none
  | none :: _ => some (.error 0)
  | some line :: rest =>
      if line = [] then some (.ok dflt)
      else
        match pyParseInt line with
        | some n => if 0 < n then some (.ok n) else selectNumEnvs dflt rest
        | none => selectNumEnvs dflt rest

/-- Outcome of `edit_urdf_collisions.main`. -/
inductive UrdfOutcome where
  | errNotAbs
  | errNotFound
  | ranSimulation
deriving DecidableEq

/-- `os.path.isabs` on POSIX. -/
def osPathIsAbs (p : List Char) : Bool :=
  match p with
  | '/' :: _ => true
  | _ => false

/-- `edit_urdf_collisions.main`: the path checks run before any simulation
setup; a failed check prints, closes the launcher and returns. -/
def urdfMain (urdfPath : List Char) (fileExists : Bool) : UrdfOutcome :=
  if osPathIsAbs urdfPath = false then .errNotAbs
  else if fileExists = false then .errNotFound
  else .ranSimulation

/-- **C7.**  Every error path is terminal: a missing logs base directory, an
empty option list, a run directory without `model_*.pt` files, a cancelled
menu, a `KeyboardInterrupt` at the environment-count prompt, and a
non-absolute URDF path each end the process (exit code, or early return
before the simulation) with no retry and no continuation into later steps. -/
theorem error_paths_terminal :
    (∀ (fs : ManualFs) (c1 c2 c3 c4 : Option ℕ), fs.baseDirExists = false →
      selectCheckpointPathManual fs c1 c2 c3 c4 = .error 1) ∧
    (∀ c : Option ℕ, interactiveMenu ([] : List (List Char)) c = .error 1) ∧
    (∀ (o : List Char) (os : List (List Char)),
      interactiveMenu (o :: os) none = .error 0) ∧
    (∀ (fs : ManualFs) (c1 c2 c3 c4 : Option ℕ) (d r : List Char),
      fs.baseDirExists = true →
      interactiveMenu (dateOptions fs.runDirs) c1 = .ok d →
      interactiveMenu
        (sortDescLex (fs.runDirs.filter (fun x => d.isPrefixOf x))) c2 = .ok r →
      fs.modelFiles r = [] →
      selectCheckpointPathManual fs c1 c2 c3 c4 = .error 1) ∧
    (∀ (dflt : ℤ) (rest : List (Option (List Char))),
      selectNumEnvs dflt (none :: rest) = some (.error 0)) ∧
    (∀ (p : List Char) (ex : Bool), osPathIsAbs p = false →
      urdfMain p ex = .errNotAbs ∧ urdfMain p ex ≠ .ranSimulation) := by
  refine ⟨?_, ?_, ?_, ?_, ?_, ?_⟩
  · intro fs c1 c2 c3 c4 h
    unfold selectCheckpointPathManual
    rw [if_pos h]
  · intro c
    rfl
  · intro o os
    rfl
  · intro fs c1 c2 c3 c4 d r hbase h1 h2 hempty
    unfold selectCheckpointPathManual
    rw [if_neg (by rw [hbase]; simp)]
    simp [h1, h2, hempty]
  · intro dflt rest
    rfl
  · intro p ex h
    unfold urdfMain
    rw [if_pos h]
    exact ⟨rfl, by simp⟩

/-- Witness for C7: each terminal error path demonstrated on concrete
inputs. -/
theorem error_paths_terminal_witness :
    selectCheckpointPathManual ⟨false, [], fun _ => []⟩ none none none none =
        .error 1 ∧
    interactiveMenu ([] : List (List Char)) (some 0) = .error 1 ∧
    interactiveMenu ["a".toList] (none : Option ℕ) = .error 0 ∧
    selectCheckpointPathManual
        ⟨true, ["2024-01-01_10-00-00".toList], fun _ => []⟩
        (some 0) (some 0) none none = .error 1 ∧
    selectNumEnvs 2 [none] = some (.error 0) ∧
    urdfMain "relative.urdf".toList true = .errNotAbs := by
  have hopts : dateOptions ["2024-01-01_10-00-00".toList] =
      ["2024-01-01".toList] := by
    unfold dateOptions sortDescLex
    rw [show dateKeys ["2024-01-01_10-00-00".toList] = ["2024-01-01".toList] from
      by decide]
    exact List.mergeSort_singleton _
  have hfil : List.filter (fun x => ("2024-01-01".toList).isPrefixOf x)
      ["2024-01-01_10-00-00".toList] = ["2024-01-01_10-00-00".toList] := by decide
  refine ⟨error_paths_terminal.1 ⟨false, [], fun _ => []⟩ none none none none rfl,
    error_paths_terminal.2.1 (some 0),
    error_paths_terminal.2.2.1 "a".toList [],
    ?_,
    error_paths_terminal.2.2.2.2.1 2 [],
    (error_paths_terminal.2.2.2.2.2 "relative.urdf".toList true (by decide)).1⟩
  refine error_paths_terminal.2.2.2.1
    ⟨true, ["2024-01-01_10-00-00".toList], fun _ => []⟩
    (some 0) (some 0) none none "2024-01-01".toList "2024-01-01_10-00-00".toList
    rfl ?_ ?_ rfl
  · show interactiveMenu (dateOptions ["2024-01-01_10-00-00".toList]) (some 0) =
      .ok "2024-01-01".toList
    rw [hopts]
    rfl
  · show interactiveMenu (sortDescLex (List.filter
        (fun x => ("2024-01-01".toList).isPrefixOf x)
        ["2024-01-01_10-00-00".toList])) (some 0) = .ok "2024-01-01_10-00-00".toList
    rw [hfil]
    unfold sortDescLex
    rw [List.mergeSort_singleton]
    rfl
